import Mathlib

/-!
Verification of the semantic-prime discovery pipeline
(`discover-semantic-primes.mjs`): streaming WordNet parser, lemma index,
dependency graph, Tarjan SCC decomposition, and prime scoring.

JavaScript `Map`s are modelled as insertion-ordered association lists and
`Set`s as duplicate-free insertion-ordered lists, matching the iteration
order guarantees of the ECMAScript collections the source relies on.
-/

namespace SemanticPrimes

/-! ## Association-list maps and insertion-ordered sets -/

/-- Lookup in an insertion-ordered association list (JS `Map.get`). -/
def alGet {α β : Type} [DecidableEq α] : List (α × β) → α → Option β
  | [], _ => none
  | (a, b) :: rest, k => if k = a then some b else alGet rest k

/-- Update/insert in an association list (JS `Map.set`): an existing key keeps
its position, a new key is appended at the end, as ECMAScript specifies. -/
def alSet {α β : Type} [DecidableEq α] : List (α × β) → α → β → List (α × β)
  | [], k, v => [(k, v)]
  | (a, b) :: rest, k, v => if k = a then (k, v) :: rest else (a, b) :: alSet rest k v

/-- Add to an insertion-ordered set (JS `Set.add`): no-op on duplicates,
otherwise appended at the end. -/
def setAdd {α : Type} [DecidableEq α] (s : List α) (a : α) : List α :=
  if a ∈ s then s else s ++ [a]

/-- Remove from an insertion-ordered set (JS `Set.delete`). -/
def setDel {α : Type} [DecidableEq α] (s : List α) (a : α) : List α :=
  s.filter (· ≠ a)

/-! ## JavaScript character predicates -/

/-- Character class `[a-zA-Z]` used by the tokenizer's replacement regex. -/
def isAsciiLetter (c : Char) : Bool :=
  ('a' ≤ c && c ≤ 'z') || ('A' ≤ c && c ≤ 'Z')

/-- ECMAScript `\s`: whitespace and line-terminator characters. -/
def isJsWhitespace (c : Char) : Bool :=
  c = ' ' || c = '\t' || c = '\n' || c = '\r' ||
  c = '\x0b' || c = '\x0c' ||
  c = ' ' || c = ' ' ||
  (' ' ≤ c && c ≤ ' ') ||
  c = ' ' || c = ' ' || c = ' ' || c = ' ' ||
  c = '　' || c = '﻿'

/-- ASCII lowercasing, the fragment of `String.prototype.toLowerCase` relevant
here: every non-ASCII character is replaced by a space in the next step of the
tokenizer either way, so only the `A`-`Z` mapping can influence the output. -/
def jsToLower (c : Char) : Char :=
  if 'A' ≤ c && c ≤ 'Z' then Char.ofNat (c.toNat + 32) else c

/-! ## Tokenization (`extractContentWords`) -/

mutual

/-- Accumulating walker for `String.prototype.split(/\s+/)`: scanning inside a
token (`acc` is the token so far, reversed). -/
def splitWsTok (acc : List Char) : List Char → List (List Char)
  | [] => [acc.reverse]
  | c :: rest =>
    if isJsWhitespace c then acc.reverse :: splitWsGap rest
    else splitWsTok (c :: acc) rest

/-- Walker for `split(/\s+/)` just after a whitespace separator: further
whitespace belongs to the same separator run. -/
def splitWsGap : List Char → List (List Char)
  | [] => [[]]
  | c :: rest =>
    if isJsWhitespace c then splitWsGap rest
    else splitWsTok [c] rest

end

/-- `String.prototype.split(/\s+/)`: tokens between maximal whitespace runs,
with an empty token at either end when the string starts or ends with
whitespace (as ECMAScript produces). -/
def splitWs (cs : List Char) : List (List Char) :=
  splitWsTok [] cs

/-- Extract content words from a definition, as `extractContentWords` does:
lowercase, replace every character outside `[a-zA-Z\s]` by a space, split on
whitespace runs, keep tokens longer than 2 characters, drop stop words, and
de-duplicate preserving first occurrence (`[...new Set(words)]`). -/
def extractContentWords (stopWords : List String) (definition : String) : List String :=
  let lowered := definition.toList.map jsToLower
  let replaced := lowered.map (fun c => if isAsciiLetter c || isJsWhitespace c then c else ' ')
  let words := (splitWs replaced).map String.mk
  let words := words.filter (fun w => 2 < w.length)
  let words := words.filter (fun w => ¬ w ∈ stopWords)
  words.foldl setAdd []

/-! ## Line matching

The parser's line recognizers are anchored-free regular expressions built from
literals and character classes under star/plus, e.g.
`<LexicalEntry\s+id="([^"]+)"`.  They are embedded as item sequences with
leftmost-match, greedy-with-backtracking semantics, which on this fragment
(no alternation, no nesting) coincides with the ECMAScript behaviour. -/

/-- One component of a linear regular expression. -/
inductive RItem : Type where
  | lit : List Char → RItem
  | star : (Char → Bool) → RItem
  | plus : (Char → Bool) → RItem
  | capStar : (Char → Bool) → RItem
  | capPlus : (Char → Bool) → RItem

/-- Boolean test that `pat` is an initial segment of `cs`. -/
def listStartsWith {α : Type} [DecidableEq α] : List α → List α → Bool
  | [], _ => true
  | _ :: _, [] => false
  | a :: as, b :: bs => a = b && listStartsWith as bs

/-- Backtracking driver: try `f` at `lo + n`, `lo + n - 1`, …, `lo` (greedy
order) and return the first success. -/
def tryLensGo {β : Type} (f : Nat → Option β) (lo : Nat) : Nat → Option β
  | 0 => f lo
  | n + 1 =>
    match f (lo + n + 1) with
    | some b => some b
    | none => tryLensGo f lo n

/-- Match a sequence of regex items at the start of `cs`, returning the list of
captures and the remaining input.  Star/plus items are greedy and backtrack. -/
def matchItems : List RItem → List Char → Option (List (List Char) × List Char)
  | [], cs => some ([], cs)
  | .lit l :: items, cs =>
    if listStartsWith l cs then matchItems items (cs.drop l.length) else none
  | .star p :: items, cs =>
    tryLensGo (fun n => matchItems items (cs.drop n)) 0 ((cs.takeWhile p).length)
  | .plus p :: items, cs =>
    if (cs.takeWhile p).length = 0 then none
    else tryLensGo (fun n => matchItems items (cs.drop n)) 1 ((cs.takeWhile p).length - 1)
  | .capStar p :: items, cs =>
    tryLensGo (fun n => (matchItems items (cs.drop n)).map
      (fun r => (cs.take n :: r.1, r.2))) 0 ((cs.takeWhile p).length)
  | .capPlus p :: items, cs =>
    if (cs.takeWhile p).length = 0 then none
    else tryLensGo (fun n => (matchItems items (cs.drop n)).map
      (fun r => (cs.take n :: r.1, r.2))) 1 ((cs.takeWhile p).length - 1)

/-- Leftmost search of an unanchored pattern, as `String.prototype.match`:
try each start position left to right, return the captures of the first hit. -/
def searchRegex (items : List RItem) : List Char → Option (List (List Char))
  | [] => (matchItems items []).map (·.1)
  | c :: rest =>
    match matchItems items (c :: rest) with
    | some r => some r.1
    | none => searchRegex items rest

/-- First capture group of a search result (all the source's patterns have
exactly one capture group). -/
def cap1 (r : Option (List (List Char))) : Option (List Char) :=
  match r with
  | some (c :: _) => some c
  | _ => none

/-- Substring test (JS `String.prototype.includes`). -/
def containsSub (pat : List Char) : List Char → Bool
  | [] => pat.isEmpty
  | c :: rest => listStartsWith pat (c :: rest) || containsSub pat rest

/-- Scanner for the global literal replacement: the first argument bounds the
number of characters still to be scanned (it starts at the input's length and
never runs out, since every step consumes at least one character). -/
def replaceAllGo (pat repl : List Char) : Nat → List Char → List Char
  | _, [] => []
  | 0, c :: rest => c :: rest
  | bound + 1, c :: rest =>
    if pat.isEmpty = false ∧ listStartsWith pat (c :: rest) = true then
      repl ++ replaceAllGo pat repl bound (List.drop pat.length (c :: rest))
    else
      c :: replaceAllGo pat repl bound rest

/-- Global literal replacement (JS `String.prototype.replace(/lit/g, repl)`):
leftmost, non-overlapping, scanning resumes after the replacement. -/
def replaceAll (pat repl : List Char) (cs : List Char) : List Char :=
  replaceAllGo pat repl cs.length cs

/-- The quote character `"`. -/
def quoteC : Char := Char.ofNat 34

/-- The apostrophe character. -/
def aposC : Char := Char.ofNat 39

/-- Decode the five XML entities, in the source's order (`&amp;` last). -/
def decodeXmlEntities (s : String) : String :=
  let t1 := replaceAll "&apos;".toList [aposC] s.toList
  let t2 := replaceAll "&quot;".toList [quoteC] t1
  let t3 := replaceAll "&lt;".toList "<".toList t2
  let t4 := replaceAll "&gt;".toList ">".toList t3
  String.mk (replaceAll "&amp;".toList "&".toList t4)

/-- Lowercasing of a whole string (ASCII fragment of `toLowerCase`). -/
def strLower (s : String) : String :=
  String.mk (s.toList.map jsToLower)

/-- Capture of `/<LexicalEntry\s+id="([^"]+)"/`. -/
def entryIdMatch (line : List Char) : Option (List Char) :=
  cap1 (searchRegex [.lit "<LexicalEntry".toList, .plus isJsWhitespace,
    .lit ("id=".toList ++ [quoteC]), .capPlus (fun c => c != quoteC), .lit [quoteC]] line)

/-- Capture of `/<Lemma\s+([^>]+)/`. -/
def lemmaAttrsMatch (line : List Char) : Option (List Char) :=
  cap1 (searchRegex [.lit "<Lemma".toList, .plus isJsWhitespace,
    .capPlus (fun c => c != '>')] line)

/-- Capture of `/writtenForm="([^"]+)"/`. -/
def writtenFormMatch (attrs : List Char) : Option (List Char) :=
  cap1 (searchRegex [.lit ("writtenForm=".toList ++ [quoteC]),
    .capPlus (fun c => c != quoteC), .lit [quoteC]] attrs)

/-- Capture of `/<Sense\s+([^>]+)/`. -/
def senseAttrsMatch (line : List Char) : Option (List Char) :=
  cap1 (searchRegex [.lit "<Sense".toList, .plus isJsWhitespace,
    .capPlus (fun c => c != '>')] line)

/-- Capture of `/synset="([^"]+)"/`. -/
def synsetRefMatch (attrs : List Char) : Option (List Char) :=
  cap1 (searchRegex [.lit ("synset=".toList ++ [quoteC]),
    .capPlus (fun c => c != quoteC), .lit [quoteC]] attrs)

/-- Capture of `/<Synset\s+([^>]+)>/`. -/
def synsetAttrsMatch (line : List Char) : Option (List Char) :=
  cap1 (searchRegex [.lit "<Synset".toList, .plus isJsWhitespace,
    .capPlus (fun c => c != '>'), .lit ['>']] line)

/-- Capture of `/id="([^"]+)"/`. -/
def idAttrMatch (attrs : List Char) : Option (List Char) :=
  cap1 (searchRegex [.lit ("id=".toList ++ [quoteC]),
    .capPlus (fun c => c != quoteC), .lit [quoteC]] attrs)

/-- Capture of `/partOfSpeech="([^"]+)"/`. -/
def posAttrMatch (attrs : List Char) : Option (List Char) :=
  cap1 (searchRegex [.lit ("partOfSpeech=".toList ++ [quoteC]),
    .capPlus (fun c => c != quoteC), .lit [quoteC]] attrs)

/-- Capture of `/<Definition[^>]*>([^<]*)<\/Definition>/`. -/
def defFullMatch (line : List Char) : Option (List Char) :=
  cap1 (searchRegex [.lit "<Definition".toList, .star (fun c => c != '>'), .lit ['>'],
    .capStar (fun c => c != '<'), .lit "</Definition>".toList] line)

/-- Capture of `/<Definition[^>]*>([^<]*)/`. -/
def defStartMatch (line : List Char) : Option (List Char) :=
  cap1 (searchRegex [.lit "<Definition".toList, .star (fun c => c != '>'), .lit ['>'],
    .capStar (fun c => c != '<')] line)

/-- Capture of `/([^<]*)<\/Definition>/`. -/
def defEndMatch (line : List Char) : Option (List Char) :=
  cap1 (searchRegex [.capStar (fun c => c != '<'), .lit "</Definition>".toList] line)

/-! ## Streaming parser state machine (`parseWordNet`, phase 1) -/

/-- Transient state for an open `<LexicalEntry>` record. -/
structure EntryData : Type where
  lemmas : List String
  synsets : List String
deriving DecidableEq

/-- Transient state for an open `<Synset>` record. -/
structure SynsetState : Type where
  id : String
  partOfSpeech : String
  definitions : List String
deriving DecidableEq

/-- A completed concept set: definitions plus part of speech. -/
structure SynsetData : Type where
  definitions : List String
  partOfSpeech : String
deriving DecidableEq

/-- The parser's cross-line state. -/
structure ParseState : Type where
  currentEntry : Option EntryData
  currentSynset : Option SynsetState
  inDefinition : Bool
  definitionText : String
  synsetToLemmas : List (String × List String)
  synsetDefinitions : List (String × SynsetData)
deriving DecidableEq

/-- Phase: `<LexicalEntry id="...">` opens a new entry. -/
def stepEntryOpen (line : List Char) (st : ParseState) : ParseState :=
  match entryIdMatch line with
  | some _ => { st with currentEntry := some ⟨[], []⟩ }
  | none => st

/-- Phase: a `<Lemma ... writtenForm="..." .../>` line appends a lowercased,
entity-decoded written form to the current entry. -/
def stepLemma (line : List Char) (st : ParseState) : ParseState :=
  match lemmaAttrsMatch line, st.currentEntry with
  | some attrs, some e =>
    match writtenFormMatch attrs with
    | some form =>
      { st with
        currentEntry := some ({ e with
          lemmas := e.lemmas ++ [strLower (decodeXmlEntities (String.mk form))] }) }
    | none => st
  | _, _ => st

/-- Phase: a `<Sense ... synset="..." .../>` line appends a concept-set
reference to the current entry. -/
def stepSense (line : List Char) (st : ParseState) : ParseState :=
  match senseAttrsMatch line, st.currentEntry with
  | some attrs, some e =>
    match synsetRefMatch attrs with
    | some sid =>
      { st with currentEntry := some ({ e with synsets := e.synsets ++ [String.mk sid] }) }
    | none => st
  | _, _ => st

/-- Phase: `</LexicalEntry>` folds the entry's lemmas into the lemma set of
every concept set it references, then discards the entry. -/
def stepEntryClose (line : List Char) (st : ParseState) : ParseState :=
  if containsSub "</LexicalEntry>".toList line then
    match st.currentEntry with
    | some e =>
      { st with
        synsetToLemmas := e.synsets.foldl (fun m sid =>
          alSet m sid (e.lemmas.foldl setAdd ((alGet m sid).getD []))) st.synsetToLemmas
        currentEntry := none }
    | none => st
  else st

/-- Phase: `<Synset id="..." partOfSpeech="..." ...>` opens a new concept set
(a missing part-of-speech attribute becomes the empty string). -/
def stepSynsetOpen (line : List Char) (st : ParseState) : ParseState :=
  match synsetAttrsMatch line with
  | some attrs =>
    match idAttrMatch attrs with
    | some sid =>
      { st with
        currentSynset := some (⟨String.mk sid, String.mk ((posAttrMatch attrs).getD []), []⟩ : SynsetState) }
    | none => st
  | none => st

/-- Append a finished definition to the open concept set, when there is one. -/
def pushDefn (syn : Option SynsetState) (d : String) : Option SynsetState :=
  match syn with
  | some s => some ({ s with definitions := s.definitions ++ [d] })
  | none => none

/-- Phase: definition spans.  A single-line `<Definition ...>text</Definition>`
is captured at once; an opening without the closing tag enters multi-line
accumulation, later lines are appended (entity-decoded) until a closing tag. -/
def stepDefinition (line : List Char) (st : ParseState) : ParseState :=
  if containsSub "<Definition".toList line then
    match defFullMatch line with
    | some text =>
      let dt := decodeXmlEntities (String.mk text)
      { st with
        inDefinition := false
        definitionText := dt
        currentSynset := pushDefn st.currentSynset dt }
    | none =>
      match defStartMatch line with
      | some text =>
        { st with inDefinition := true, definitionText := decodeXmlEntities (String.mk text) }
      | none => { st with inDefinition := true, definitionText := "" }
  else if st.inDefinition then
    match defEndMatch line with
    | some text =>
      let dt := st.definitionText ++ decodeXmlEntities (String.mk text)
      { st with
        inDefinition := false
        definitionText := dt
        currentSynset := pushDefn st.currentSynset dt }
    | none =>
      { st with definitionText := st.definitionText ++ decodeXmlEntities (String.mk line) }
  else st

/-- Phase: `</Synset>` emits the concept set into the table iff at least one
definition was accumulated, and always discards the transient state. -/
def stepSynsetClose (line : List Char) (st : ParseState) : ParseState :=
  if containsSub "</Synset>".toList line then
    match st.currentSynset with
    | some syn =>
      { st with
        synsetDefinitions :=
          if syn.definitions.length > 0 then
            alSet st.synsetDefinitions syn.id ⟨syn.definitions, syn.partOfSpeech⟩
          else st.synsetDefinitions
        currentSynset := none }
    | none => st
  else st

/-- All phases of the per-line loop body before the `</Synset>` check. -/
def preClose (line : List Char) (st : ParseState) : ParseState :=
  stepDefinition line (stepSynsetOpen line (stepEntryClose line
    (stepSense line (stepLemma line (stepEntryOpen line st)))))

/-- One iteration of the parser's line loop. -/
def stepLine (st : ParseState) (line : String) : ParseState :=
  stepSynsetClose line.toList (preClose line.toList st)

/-- The parser state before the first line. -/
def initParseState : ParseState := ⟨none, none, false, "", [], []⟩

/-- Phase 1 of `parseWordNet`: fold the line loop over the input sequence. -/
def parseWordNet (lines : List String) : ParseState :=
  lines.foldl stepLine initParseState

/-! ## Lemma index (`parseWordNet`, phase 2) -/

/-- One entry of the lemma index: a definition with its part of speech and the
concept set it came from. -/
structure DefEntry : Type where
  definition : String
  partOfSpeech : String
  synsetId : String
deriving DecidableEq

/-- The three tables produced by `parseWordNet`. -/
structure ParsedTables : Type where
  lemmaToDefinitions : List (String × List DefEntry)
  definitionWordCounts : List (String × Nat)
  selfReferences : List String
deriving DecidableEq

/-- Phase 2 of `parseWordNet`: for every concept set with definitions, append
each definition to every referencing lemma's index entry (creating the entry
on first use), record self-references, and count each distinct content word
once per definition. -/
def buildLemmaIndex (stop : List String) (synsetDefinitions : List (String × SynsetData))
    (synsetToLemmas : List (String × List String)) : ParsedTables :=
  synsetDefinitions.foldl (fun acc sd =>
    let lemmas := (alGet synsetToLemmas sd.1).getD []
    sd.2.definitions.foldl (fun acc definition =>
      let contentWords := extractContentWords stop definition
      let acc := lemmas.foldl (fun acc lem =>
        { acc with
          lemmaToDefinitions := alSet acc.lemmaToDefinitions lem
            (((alGet acc.lemmaToDefinitions lem).getD []) ++
              [⟨definition, sd.2.partOfSpeech, sd.1⟩])
          selfReferences :=
            if lem ∈ contentWords then setAdd acc.selfReferences lem
            else acc.selfReferences }) acc
      { acc with
        definitionWordCounts := contentWords.foldl (fun m w =>
          alSet m w ((alGet m w).getD 0 + 1)) acc.definitionWordCounts }) acc)
    ⟨[], [], []⟩

/-! ## Dependency graph (`buildDependencyGraph`) -/

/-- Out-neighbours of a node (`graph.get(v) || new Set()`). -/
def adj {α : Type} [DecidableEq α] (g : List (α × List α)) (v : α) : List α :=
  (alGet g v).getD []

/-- Build the word-dependency graph: an edge from a lemma to every content word
of any of its definitions that itself has a lemma-index entry. -/
def buildDependencyGraph (stop : List String) (index : List (String × List DefEntry)) :
    List (String × List String) :=
  index.foldl (fun g p =>
    let deps := p.2.foldl (fun deps d =>
      (extractContentWords stop d.definition).foldl (fun deps w =>
        if (alGet index w).isSome then setAdd deps w else deps) deps) []
    alSet g p.1 deps) []

/-! ## Tarjan SCC decomposition (`findSCCs`) -/

/-- The mutable state of `findSCCs`: discovery indices, low-links, the
component stack with its membership set, the emitted components and the
discovery counter. -/
structure TarjanState (α : Type) : Type where
  indices : List (α × Nat)
  lowlinks : List (α × Nat)
  onStack : List α
  stack : List α
  sccs : List (List α)
  index : Nat
deriving DecidableEq

/-- Pop the component stack (given reversed, top first) down to and including
`v`, as the do/while loop of `strongConnect` does: returns the popped
component in pop order and the remaining (still reversed) stack.  In the
algorithm `v` is always on the stack when this runs. -/
def popWhileNe {α : Type} [DecidableEq α] (v : α) : List α → List α × List α
  | [] => ([], [])
  | w :: rest =>
    if w = v then ([w], rest)
    else (w :: (popWhileNe v rest).1, (popWhileNe v rest).2)

/-- The `for (const w of neighbors)` loop of `strongConnect`: recurse into
unvisited neighbours through `sc` (the one-level-deeper `strongConnect`,
minimising with the child low-link), minimise with the index of visited
neighbours still on the stack, skip the rest. -/
def visitNeighbors {α : Type} [DecidableEq α]
    (sc : TarjanState α → α → Option (TarjanState α)) (v : α) :
    List α → TarjanState α → Option (TarjanState α)
  | [], st => some st
  | w :: ws, st =>
    if (alGet st.indices w).isSome then
      let st' :=
        if w ∈ st.onStack then
          let m := min ((alGet st.lowlinks v).getD 0) ((alGet st.indices w).getD 0)
          { st with lowlinks := alSet st.lowlinks v m }
        else st
      visitNeighbors sc v ws st'
    else
      match sc st w with
      | none => none
      | some st' =>
        let m := min ((alGet st'.lowlinks v).getD 0) ((alGet st'.lowlinks w).getD 0)
        let st'' := { st' with lowlinks := alSet st'.lowlinks v m }
        visitNeighbors sc v ws st''

/-- The recursive `strongConnect(v)` of the source, with an explicit `fuel`
argument standing for the JavaScript call stack: every nested recursive call
consumes one unit, and exhaustion returns `none` (the engine's stack-overflow
failure). -/
def strongConnect {α : Type} [DecidableEq α] (g : List (α × List α)) :
    Nat → TarjanState α → α → Option (TarjanState α)
  | 0, _, _ => none
  | fuel + 1, st, v =>
    let st1 : TarjanState α :=
      { indices := alSet st.indices v st.index
        lowlinks := alSet st.lowlinks v st.index
        index := st.index + 1
        stack := st.stack ++ [v]
        onStack := setAdd st.onStack v
        sccs := st.sccs }
    match visitNeighbors (fun st w => strongConnect g fuel st w) v (adj g v) st1 with
    | none => none
    | some st2 =>
      if alGet st2.lowlinks v = alGet st2.indices v then
        let pr := popWhileNe v st2.stack.reverse
        some { st2 with
          stack := pr.2.reverse
          onStack := pr.1.foldl setDel st2.onStack
          sccs := st2.sccs ++ [pr.1] }
      else some st2

/-- All nodes of the graph: keys plus every edge target of a key. -/
def nodeList {α : Type} [DecidableEq α] (g : List (α × List α)) : List α :=
  (g.map Prod.fst ++ (g.map Prod.fst).flatMap (adj g)).dedup

/-- The initial Tarjan state. -/
def initTarjan {α : Type} : TarjanState α := ⟨[], [], [], [], [], 0⟩

/-- The root loop of `findSCCs`: call `strongConnect` on every yet-unvisited
graph key.  The fuel given to each root call, one more than the number of
graph nodes, lets every run that the JavaScript engine could complete finish
(a call chain can visit each node at most once). -/
def findSCCs {α : Type} [DecidableEq α] (g : List (α × List α)) : Option (List (List α)) :=
  ((g.map Prod.fst).foldl (fun acc v =>
    match acc with
    | none => none
    | some st =>
      if (alGet st.indices v).isSome then some st
      else strongConnect g ((nodeList g).length + 1) st v) (some initTarjan)).map (·.sccs)

/-! ## Prime records and scoring (`calculatePrimeScore`, `main`) -/

/-- One output record of the discovery pipeline.  The score is computed from
the stored fields by `primeScore` below, exactly as `main` computes it from
the same data. -/
structure PrimeRecord : Type where
  word : String
  sccSize : Nat
  sccSample : List String
  hasSelfLoop : Bool
  isInCycle : Bool
  referenceCount : Nat
  isSelfReference : Bool
  definition : Option String
  partOfSpeech : Option String
deriving DecidableEq

/-- The `wordToSCC` map of `main`: every word of every component mapped to its
component. -/
def wordToSCC (sccs : List (List String)) : List (String × List String) :=
  sccs.foldl (fun m scc => scc.foldl (fun m w => alSet m w scc) m) []

/-- The record `main` builds for one in-cycle word. -/
def mkPrimeRecord (graph : List (String × List String))
    (index : List (String × List DefEntry)) (counts : List (String × Nat))
    (selfRefs : List String) (word : String) (scc : List String) : PrimeRecord :=
  let firstDef := match alGet index word with
    | some (d :: _) => some d
    | _ => none
  { word := word
    sccSize := scc.length
    sccSample := scc.take 10
    hasSelfLoop := word ∈ adj graph word
    isInCycle := decide (1 < scc.length) || decide (word ∈ adj graph word)
    referenceCount := (alGet counts word).getD 0
    isSelfReference := word ∈ selfRefs
    definition := firstDef.map (·.definition)
    partOfSpeech := firstDef.map (·.partOfSpeech) }

/-- The record-building loop of `main`: for every word of `wordToSCC`, emit a
record iff the word is in-cycle (component of size over one, or a self-loop);
all other words are skipped. -/
def buildPrimes (graph : List (String × List String))
    (index : List (String × List DefEntry)) (counts : List (String × Nat))
    (selfRefs : List String) (sccs : List (List String)) : List PrimeRecord :=
  (wordToSCC sccs).foldl (fun primes p =>
    if 1 < p.2.length ∨ p.1 ∈ adj graph p.1 then
      primes ++ [mkPrimeRecord graph index counts selfRefs p.1 p.2]
    else primes) []

/-- The score formula of `calculatePrimeScore`, over the reals (the idealised
semantics of the JavaScript float arithmetic): an in-cycle base of 50, a
capped logarithmic bonus for components larger than one, fixed bonuses for
self-loop and textual self-reference, a logarithmic bonus for the reference
count (absent counts behave as zero), and a brevity bonus. -/
noncomputable def calculatePrimeScore (word : String) (sccSize : Nat) (hasSelfLoop : Bool)
    (refCount : Nat) (isSelfRef : Bool) (isInCycle : Bool) : ℝ :=
  (if isInCycle then 50 else 0) +
  (if 1 < sccSize then min (Real.logb 10 sccSize * 15) 30 else 0) +
  (if hasSelfLoop then 30 else 0) +
  (if isSelfRef then 20 else 0) +
  (if refCount ≠ 0 then Real.logb 10 refCount * 8 else 0) +
  (if word.length ≤ 4 then 10 else if word.length ≤ 6 then 5 else 0)

/-- The score of a record, from its stored fields (as `main` passes them). -/
noncomputable def primeScore (p : PrimeRecord) : ℝ :=
  calculatePrimeScore p.word p.sccSize p.hasSelfLoop p.referenceCount
    p.isSelfReference p.isInCycle

open Classical in
/-- Insert a record into an already descending-sorted list, after every record
of greater or equal score (so that equal scores keep insertion order). -/
noncomputable def insertByScore (p : PrimeRecord) : List PrimeRecord → List PrimeRecord
  | [] => [p]
  | q :: qs => if primeScore q < primeScore p then p :: q :: qs else q :: insertByScore p qs

open Classical in
/-- The final `primes.sort((a, b) => b.primeScore - a.primeScore)`: ECMAScript
`Array.prototype.sort` is specified stable, and with this comparator it
produces exactly the stable descending order by score. -/
noncomputable def sortPrimes (l : List PrimeRecord) : List PrimeRecord :=
  l.foldl (fun acc p => insertByScore p acc) []

/-! ## Concrete inputs used by the end-to-end checks -/

/-- The toy corpus: three concept sets with one definition each. -/
def toySynsetDefs : List (String × SynsetData) :=
  [("s1", ⟨["a thing"], "n"⟩), ("s2", ⟨["an entity"], "n"⟩),
   ("s3", ⟨["the physical structure of an entity"], "n"⟩)]

/-- Lemma sets of the toy corpus' concept sets. -/
def toySynsetLemmas : List (String × List String) :=
  [("s1", ["entity"]), ("s2", ["thing"]), ("s3", ["body"])]

/-- The toy corpus' lemma index and frequency tables. -/
def toyTables : ParsedTables := buildLemmaIndex [] toySynsetDefs toySynsetLemmas

/-- The toy corpus' dependency graph. -/
def toyGraph : List (String × List String) :=
  buildDependencyGraph [] toyTables.lemmaToDefinitions

/-- A chain graph `0 → 1 → ⋯ → n`: `n` keys, each depending on its
successor. -/
def chainGraph (n : Nat) : List (Nat × List Nat) :=
  (List.range n).map (fun i => (i, [i + 1]))

/-! ## Proof-layer notions for the SCC development -/

/-- The edge relation of a dependency graph. -/
def Edge {α : Type} [DecidableEq α] (g : List (α × List α)) (u v : α) : Prop :=
  v ∈ adj g u

/-- Reachability along directed edges (reflexive-transitive closure). -/
def Reach {α : Type} [DecidableEq α] (g : List (α × List α)) : α → α → Prop :=
  Relation.ReflTransGen (Edge g)

/-- A node's discovery index, when assigned. -/
def idxO {α : Type} [DecidableEq α] (st : TarjanState α) (v : α) : Option Nat :=
  alGet st.indices v

/-- A node's discovery index with default 0 (always used under definedness). -/
def idxD {α : Type} [DecidableEq α] (st : TarjanState α) (v : α) : Nat :=
  (alGet st.indices v).getD 0

/-- A node's low-link with default 0 (always used under definedness). -/
def lowD {α : Type} [DecidableEq α] (st : TarjanState α) (v : α) : Nat :=
  (alGet st.lowlinks v).getD 0

/-- The node has been visited (has a discovery index). -/
def visited {α : Type} [DecidableEq α] (st : TarjanState α) (v : α) : Prop :=
  (alGet st.indices v).isSome

/-- All members of emitted components. -/
def sccsFlat {α : Type} (st : TarjanState α) : List α :=
  st.sccs.flatten

/-- How many graph nodes are still unvisited (bounds the recursion depth). -/
def unvisitedCount {α : Type} [DecidableEq α] (g : List (α × List α))
    (st : TarjanState α) : Nat :=
  ((nodeList g).filter (fun w => (alGet st.indices w).isNone)).length

/-- The state invariant of the SCC decomposition. -/
structure TarjanWF {α : Type} [DecidableEq α] (g : List (α × List α))
    (st : TarjanState α) : Prop where
  idxNode : ∀ v, visited st v → v ∈ nodeList g
  stackIdx : ∀ v ∈ st.stack, visited st v
  stackSorted : st.stack.Pairwise (fun a b => idxD st a < idxD st b)
  onStackIff : ∀ v, v ∈ st.onStack ↔ v ∈ st.stack
  idxLt : ∀ v i, idxO st v = some i → i < st.index
  idxInj : ∀ v w i, idxO st v = some i → idxO st w = some i → v = w
  lowDef : ∀ v, (alGet st.lowlinks v).isSome ↔ visited st v
  lowLe : ∀ v, visited st v → lowD st v ≤ idxD st v
  partStack : ∀ v, visited st v ↔ (v ∈ st.stack ∨ v ∈ sccsFlat st)
  stackFlatDisj : ∀ v, v ∈ st.stack → v ∉ sccsFlat st
  flatNodup : (sccsFlat st).Nodup
  closure : ∀ c ∈ st.sccs, ∀ u ∈ c, ∀ y, Edge g u y → y ∈ sccsFlat st
  sccConn : ∀ c ∈ st.sccs, ∀ u ∈ c, ∀ y ∈ c, Reach g u y
  sccMax : ∀ c ∈ st.sccs, ∀ u ∈ c, ∀ y, Reach g u y → Reach g y u → y ∈ c
  sccNE : ∀ c ∈ st.sccs, c ≠ []
  lowStack : ∀ u ∈ st.stack, ∃ z ∈ st.stack, idxD st z = lowD st u ∧ Reach g u z

/-- What one completed `strongConnect(v)` call guarantees, relating the states
before (`st`) and after (`st'`). -/
structure SCPost {α : Type} [DecidableEq α] (g : List (α × List α)) (v : α)
    (st st' : TarjanState α) : Prop where
  wf : TarjanWF g st'
  idxPres : ∀ w i, idxO st w = some i → idxO st' w = some i
  lowPres : ∀ w, visited st w → alGet st'.lowlinks w = alGet st.lowlinks w
  vIdx : idxO st' v = some st.index
  ctrGt : st.index < st'.index
  newBounds : ∀ w i, idxO st w = none → idxO st' w = some i → st.index ≤ i
  stackShape : (st'.stack = st.stack ∧ v ∈ sccsFlat st') ∨
    (∃ ext, st'.stack = st.stack ++ v :: ext ∧ ∀ x ∈ ext, ¬ visited st x)
  sccsExt : ∃ rest, st'.sccs = st.sccs ++ rest ∧ ∀ c ∈ rest, ∀ x ∈ c, ¬ visited st x
  newReach : ∀ w, ¬ visited st w → visited st' w → Reach g v w
  postComp : ∀ w, ¬ visited st w → visited st' w → ∀ y, Edge g w y → visited st' y
  postLow : ∀ w, ¬ visited st w → w ∈ st'.stack → lowD st' v ≤ lowD st' w
  postRoot : ∀ w, ¬ visited st w → w ∈ st'.stack → lowD st' w < idxD st' w
  postBack : ∀ w, ¬ visited st w → visited st' w → ∀ y, Edge g w y → y ∈ st'.stack →
    lowD st' w ≤ idxD st' y
  popLow : v ∈ sccsFlat st' → lowD st' v = idxD st' v

/-- What the neighbour loop of `strongConnect(v)` guarantees (the loop is
entered with `v` freshly indexed and on the stack). -/
structure VNPost {α : Type} [DecidableEq α] (g : List (α × List α)) (v : α)
    (st st' : TarjanState α) : Prop where
  wf : TarjanWF g st'
  vVis : visited st v
  vMem : v ∈ st.stack
  idxPres : ∀ w i, idxO st w = some i → idxO st' w = some i
  lowPresNe : ∀ w, visited st w → w ≠ v → alGet st'.lowlinks w = alGet st.lowlinks w
  lowVLe : lowD st' v ≤ lowD st v
  ctrMono : st.index ≤ st'.index
  stackExt : ∃ δ, st'.stack = st.stack ++ δ ∧ ∀ x ∈ δ, ¬ visited st x
  sccsExt : ∃ rest, st'.sccs = st.sccs ++ rest ∧ ∀ c ∈ rest, ∀ x ∈ c, ¬ visited st x
  newBounds : ∀ w i, idxO st w = none → idxO st' w = some i → st.index ≤ i
  newReach : ∀ w, ¬ visited st w → visited st' w → Reach g v w
  postComp : ∀ w, ¬ visited st w → visited st' w → ∀ y, Edge g w y → visited st' y
  postLow : ∀ w, ¬ visited st w → w ∈ st'.stack → lowD st' v ≤ lowD st' w
  postRoot : ∀ w, ¬ visited st w → w ∈ st'.stack → lowD st' w < idxD st' w
  postBack : ∀ w, ¬ visited st w → visited st' w → ∀ y, Edge g w y → y ∈ st'.stack →
    lowD st' w ≤ idxD st' y

/-! ## Basic lemmas about the collection operations -/

theorem alGet_alSet_self {α β : Type} [DecidableEq α] (m : List (α × β)) (k : α) (v : β) :
    alGet (alSet m k v) k = some v := by
  induction m with
  | nil => simp [alGet, alSet]
  | cons p rest ih =>
    obtain ⟨a, b⟩ := p
    by_cases h : k = a <;> simp [alGet, alSet, h, ih]

theorem alGet_alSet_ne {α β : Type} [DecidableEq α] (m : List (α × β)) (k k' : α) (v : β)
    (h : k' ≠ k) : alGet (alSet m k v) k' = alGet m k' := by
  induction m with
  | nil => simp [alGet, alSet, h]
  | cons p rest ih =>
    obtain ⟨a, b⟩ := p
    by_cases hka : k = a
    · subst hka
      simp [alGet, alSet, h]
    · by_cases hk'a : k' = a <;> simp [alGet, alSet, hka, hk'a, ih]

theorem mem_setAdd {α : Type} [DecidableEq α] (s : List α) (a b : α) :
    b ∈ setAdd s a ↔ b ∈ s ∨ b = a := by
  unfold setAdd
  by_cases h : a ∈ s
  · simp only [if_pos h]
    constructor
    · exact Or.inl
    · rintro (hb | rfl) <;> [exact hb; exact h]
  · simp [if_neg h]

theorem setAdd_nodup {α : Type} [DecidableEq α] {s : List α} (h : s.Nodup) (a : α) :
    (setAdd s a).Nodup := by
  unfold setAdd
  by_cases hm : a ∈ s
  · simpa [hm] using h
  · simp only [if_neg hm, List.nodup_append, h, List.nodup_cons, List.not_mem_nil,
      not_false_iff, List.nodup_nil, and_true, true_and, List.disjoint_left]
    intro b hb hba
    simp only [List.mem_singleton] at hba
    exact hm (hba ▸ hb)

theorem foldl_setAdd_nodup {α : Type} [DecidableEq α] (l : List α) (acc : List α)
    (h : acc.Nodup) : (l.foldl setAdd acc).Nodup := by
  induction l generalizing acc with
  | nil => exact h
  | cons a l ih => exact ih _ (setAdd_nodup h a)

theorem mem_foldl_setAdd {α : Type} [DecidableEq α] (l : List α) (acc : List α) (b : α) :
    b ∈ l.foldl setAdd acc ↔ b ∈ acc ∨ b ∈ l := by
  induction l generalizing acc with
  | nil => simp
  | cons a l ih =>
    simp only [List.foldl_cons, ih, mem_setAdd, List.mem_cons]
    tauto

theorem alGet_cons_self {α β : Type} [DecidableEq α] (rest : List (α × β)) (k : α) (b : β) :
    alGet ((k, b) :: rest) k = some b := by simp [alGet]

theorem alGet_cons_ne {α β : Type} [DecidableEq α] (rest : List (α × β)) (a k : α) (b : β)
    (h : k ≠ a) : alGet ((a, b) :: rest) k = alGet rest k := by simp [alGet, h]

theorem alSet_cons_self {α β : Type} [DecidableEq α] (rest : List (α × β)) (k : α) (b v : β) :
    alSet ((k, b) :: rest) k v = (k, v) :: rest := by simp [alSet]

theorem alSet_cons_ne {α β : Type} [DecidableEq α] (rest : List (α × β)) (a k : α) (b : β)
    (v : β) (h : k ≠ a) : alSet ((a, b) :: rest) k v = (a, b) :: alSet rest k v := by
  simp [alSet, h]

theorem mem_alSet {α β : Type} [DecidableEq α] (m : List (α × β)) (k : α) (v : β) (e : α × β)
    (h : e ∈ alSet m k v) : e ∈ m ∨ e = (k, v) := by
  induction m with
  | nil =>
    simp only [alSet, List.mem_singleton] at h
    exact Or.inr h
  | cons p rest ih =>
    obtain ⟨a, b⟩ := p
    by_cases hka : k = a
    · subst hka
      rw [alSet_cons_self] at h
      rcases List.mem_cons.mp h with h | h
      · exact Or.inr h
      · exact Or.inl (List.mem_cons_of_mem _ h)
    · rw [alSet_cons_ne _ _ _ _ _ hka] at h
      rcases List.mem_cons.mp h with h | h
      · exact Or.inl (h ▸ List.mem_cons_self _ _)
      · rcases ih h with h | h
        · exact Or.inl (List.mem_cons_of_mem _ h)
        · exact Or.inr h

theorem alGet_mem {α β : Type} [DecidableEq α] (m : List (α × β)) (k : α) (v : β)
    (h : alGet m k = some v) : (k, v) ∈ m := by
  induction m with
  | nil => simp [alGet] at h
  | cons p rest ih =>
    obtain ⟨a, b⟩ := p
    by_cases hka : k = a
    · subst hka
      rw [alGet_cons_self] at h
      obtain rfl : b = v := by simpa using h
      exact List.mem_cons_self _ _
    · rw [alGet_cons_ne _ _ _ _ hka] at h
      exact List.mem_cons_of_mem _ (ih h)

theorem alGet_isSome_of_mem_keys {α β : Type} [DecidableEq α] (m : List (α × β)) (k : α)
    (h : k ∈ m.map Prod.fst) : (alGet m k).isSome := by
  induction m with
  | nil => simp at h
  | cons p rest ih =>
    obtain ⟨a, b⟩ := p
    by_cases hka : k = a
    · subst hka
      rw [alGet_cons_self]
      rfl
    · rw [alGet_cons_ne _ _ _ _ hka]
      simp only [List.map_cons, List.mem_cons] at h
      rcases h with h | h
      · exact absurd h hka
      · exact ih h

theorem mem_keys_of_alGet_isSome {α β : Type} [DecidableEq α] (m : List (α × β)) (k : α)
    (h : (alGet m k).isSome) : k ∈ m.map Prod.fst := by
  induction m with
  | nil => simp [alGet] at h
  | cons p rest ih =>
    obtain ⟨a, b⟩ := p
    by_cases hka : k = a
    · simp [hka]
    · rw [alGet_cons_ne _ _ _ _ hka] at h
      simp only [List.map_cons, List.mem_cons]
      exact Or.inr (ih h)

theorem alSet_keys_sub {α β : Type} [DecidableEq α] (m : List (α × β)) (k : α) (v : β) :
    ∀ a ∈ (alSet m k v).map Prod.fst, a ∈ m.map Prod.fst ∨ a = k := by
  induction m with
  | nil =>
    intro a ha
    simp only [alSet, List.map_cons, List.map_nil, List.mem_singleton] at ha
    exact Or.inr ha
  | cons p rest ih =>
    obtain ⟨x, y⟩ := p
    intro a ha
    by_cases hkx : k = x
    · subst hkx
      rw [alSet_cons_self] at ha
      simp only [List.map_cons, List.mem_cons] at ha
      rcases ha with rfl | ha
      · exact Or.inr rfl
      · exact Or.inl (by simp only [List.map_cons, List.mem_cons]; exact Or.inr ha)
    · rw [alSet_cons_ne _ _ _ _ _ hkx] at ha
      simp only [List.map_cons, List.mem_cons] at ha
      rcases ha with rfl | ha
      · exact Or.inl (by simp)
      · rcases ih a ha with h | h
        · exact Or.inl (by simp only [List.map_cons, List.mem_cons]; exact Or.inr h)
        · exact Or.inr h

theorem alSet_nodupKeys {α β : Type} [DecidableEq α] (m : List (α × β)) (k : α) (v : β)
    (h : (m.map Prod.fst).Nodup) : ((alSet m k v).map Prod.fst).Nodup := by
  induction m with
  | nil => simp [alSet]
  | cons p rest ih =>
    obtain ⟨a, b⟩ := p
    simp only [List.map_cons, List.nodup_cons] at h
    by_cases hka : k = a
    · subst hka
      rw [alSet_cons_self]
      simp only [List.map_cons, List.nodup_cons]
      exact h
    · rw [alSet_cons_ne _ _ _ _ _ hka]
      simp only [List.map_cons, List.nodup_cons]
      refine ⟨fun hmem => ?_, ih h.2⟩
      rcases alSet_keys_sub rest k v a hmem with hm | hm
      · exact h.1 hm
      · exact hka hm.symm

theorem mem_alGet_of_nodupKeys {α β : Type} [DecidableEq α] (m : List (α × β))
    (h : (m.map Prod.fst).Nodup) (e : α × β) (he : e ∈ m) : alGet m e.1 = some e.2 := by
  induction m with
  | nil => simp at he
  | cons p rest ih =>
    obtain ⟨a, b⟩ := p
    simp only [List.map_cons, List.nodup_cons] at h
    rcases List.mem_cons.mp he with rfl | he
    · exact alGet_cons_self _ _ _
    · have hne : e.1 ≠ a := by
        rintro hh
        exact h.1 (hh ▸ List.mem_map.mpr ⟨e, he, rfl⟩)
      rw [alGet_cons_ne _ _ _ _ hne]
      exact ih h.2 he

/-! ## Membership lemmas for the record-building loop -/

theorem foldl_preserve {α β : Type} (P : α → Prop) (f : α → β → α) (l : List β) (a : α)
    (h : ∀ a x, P a → P (f a x)) (ha : P a) : P (l.foldl f a) := by
  induction l generalizing a with
  | nil => exact ha
  | cons x l ih => exact ih _ (h a x ha)

theorem mem_buildPrimes_foldl (g : List (String × List String))
    (idx : List (String × List DefEntry)) (c : List (String × Nat)) (s : List String)
    (l : List (String × List String)) (acc : List PrimeRecord) (p : PrimeRecord) :
    p ∈ l.foldl (fun primes e =>
        if 1 < e.2.length ∨ e.1 ∈ adj g e.1 then
          primes ++ [mkPrimeRecord g idx c s e.1 e.2]
        else primes) acc ↔
      p ∈ acc ∨ ∃ e ∈ l, (1 < e.2.length ∨ e.1 ∈ adj g e.1) ∧
        p = mkPrimeRecord g idx c s e.1 e.2 := by
  induction l generalizing acc with
  | nil => simp
  | cons e l ih =>
    simp only [List.foldl_cons]
    by_cases hc : 1 < e.2.length ∨ e.1 ∈ adj g e.1
    · rw [if_pos hc, ih]
      simp only [List.mem_append, List.mem_singleton, List.mem_cons,
        List.not_mem_nil, or_false]
      constructor
      · rintro ((hp | hp) | ⟨x, hx, hcx, rfl⟩)
        · exact Or.inl hp
        · exact Or.inr ⟨e, Or.inl rfl, hc, hp⟩
        · exact Or.inr ⟨x, Or.inr hx, hcx, rfl⟩
      · rintro (hp | ⟨x, (rfl | hx), hcx, rfl⟩)
        · exact Or.inl (Or.inl hp)
        · exact Or.inl (Or.inr rfl)
        · exact Or.inr ⟨x, hx, hcx, rfl⟩
    · rw [if_neg hc, ih]
      simp only [List.mem_cons]
      constructor
      · rintro (hp | ⟨x, hx, hcx, rfl⟩)
        · exact Or.inl hp
        · exact Or.inr ⟨x, Or.inr hx, hcx, rfl⟩
      · rintro (hp | ⟨x, (rfl | hx), hcx, rfl⟩)
        · exact Or.inl hp
        · exact absurd hcx hc
        · exact Or.inr ⟨x, hx, hcx, rfl⟩

theorem mem_buildPrimes (g : List (String × List String))
    (idx : List (String × List DefEntry)) (c : List (String × Nat)) (s : List String)
    (sccs : List (List String)) (p : PrimeRecord) :
    p ∈ buildPrimes g idx c s sccs ↔
      ∃ e ∈ wordToSCC sccs, (1 < e.2.length ∨ e.1 ∈ adj g e.1) ∧
        p = mkPrimeRecord g idx c s e.1 e.2 := by
  unfold buildPrimes
  rw [mem_buildPrimes_foldl]
  simp

theorem mem_wordToSCC_foldl_inner (scc : List String) (sccs : List (List String))
    (hscc : scc ∈ sccs) :
    ∀ (ws : List String) (m : List (String × List String)), (∀ w ∈ ws, w ∈ scc) →
      (∀ e ∈ m, e.2 ∈ sccs ∧ e.1 ∈ e.2) →
      ∀ e ∈ ws.foldl (fun m w => alSet m w scc) m, e.2 ∈ sccs ∧ e.1 ∈ e.2 := by
  intro ws
  induction ws with
  | nil => intro m _ hm e he; exact hm e he
  | cons w ws ih =>
    intro m hws hm e he
    refine ih _ (fun x hx => hws x (List.mem_cons_of_mem _ hx)) ?_ e he
    intro e' he'
    rcases mem_alSet _ _ _ _ he' with h | h
    · exact hm e' h
    · subst h
      exact ⟨hscc, hws w (List.mem_cons_self _ _)⟩

theorem mem_wordToSCC (sccs : List (List String)) (e : String × List String)
    (he : e ∈ wordToSCC sccs) : e.2 ∈ sccs ∧ e.1 ∈ e.2 := by
  unfold wordToSCC at he
  suffices h : ∀ (cs : List (List String)) (m : List (String × List String)),
      (∀ c ∈ cs, c ∈ sccs) → (∀ x ∈ m, x.2 ∈ sccs ∧ x.1 ∈ x.2) →
      ∀ x ∈ cs.foldl (fun m scc => scc.foldl (fun m w => alSet m w scc) m) m,
        x.2 ∈ sccs ∧ x.1 ∈ x.2 by
    exact h sccs [] (fun c hc => hc) (by simp) e he
  intro cs
  induction cs with
  | nil => intro m _ hm x hx; exact hm x hx
  | cons c cs ih =>
    intro m hcs hm x hx
    refine ih _ (fun d hd => hcs d (List.mem_cons_of_mem _ hd)) ?_ x hx
    intro y hy
    exact mem_wordToSCC_foldl_inner c sccs (hcs c (List.mem_cons_self _ _)) c m
      (fun w hw => hw) hm y hy

theorem wordToSCC_nodupKeys (sccs : List (List String)) :
    ((wordToSCC sccs).map Prod.fst).Nodup := by
  unfold wordToSCC
  refine foldl_preserve
    (fun m : List (String × List String) => (m.map Prod.fst).Nodup) _ _ _ ?_ (by simp)
  intro m scc hm
  exact foldl_preserve
    (fun m : List (String × List String) => (m.map Prod.fst).Nodup) _ _ _
    (fun m w hm => alSet_nodupKeys m w scc hm) hm

/-! ## C4: tokenization -/

/-- C4: content-word extraction keeps exactly the tokens of length over 2 that
are not stop words, de-duplicated within the one definition; with the default
empty stop-word set, `"A Thing that is a Thing"` yields exactly
`thing, that` (first-occurrence order). -/
theorem extractContentWords_spec :
    (∀ (stopWords : List String) (s : String) (w : String),
        w ∈ extractContentWords stopWords s → 2 < w.length ∧ w ∉ stopWords) ∧
    (∀ (stopWords : List String) (s : String), (extractContentWords stopWords s).Nodup) ∧
    extractContentWords [] "A Thing that is a Thing" = ["thing", "that"] := by
  refine ⟨?_, ?_, by decide⟩
  · intro stop s w hw
    unfold extractContentWords at hw
    rw [mem_foldl_setAdd] at hw
    rcases hw with h | hw
    · cases h
    · have h1 := (List.mem_filter.mp hw).2
      have h2 := (List.mem_filter.mp (List.mem_filter.mp hw).1).2
      constructor
      · simpa using h2
      · simpa using h1
  · intro stop s
    exact foldl_setAdd_nodup _ _ List.nodup_nil

/-- Witness for C4 at a concrete token of the concrete example. -/
theorem extractContentWords_spec_witness :
    ("thing" ∈ extractContentWords [] "A Thing that is a Thing") ∧
      2 < "thing".length ∧ "thing" ∉ ([] : List String) :=
  ⟨by decide, extractContentWords_spec.1 [] "A Thing that is a Thing" "thing" (by decide)⟩

/-! ## C5: the toy corpus end to end -/

/-- C5: on the toy corpus (entity = "a thing", thing = "an entity",
body = "the physical structure of an entity") the dependency graph has exactly
the edges entity→thing, thing→entity and body→entity; the SCC decomposition is
the two-element component of thing and entity plus the singleton body, which
has no self-loop; and the emitted records are exactly those of thing and
entity, both with SCC size 2 — body is excluded. -/
theorem toy_corpus_end_to_end :
    adj toyGraph "entity" = ["thing"] ∧
    adj toyGraph "thing" = ["entity"] ∧
    adj toyGraph "body" = ["entity"] ∧
    findSCCs toyGraph = some [["thing", "entity"], ["body"]] ∧
    ¬ "body" ∈ adj toyGraph "body" ∧
    (buildPrimes toyGraph toyTables.lemmaToDefinitions toyTables.definitionWordCounts
        toyTables.selfReferences [["thing", "entity"], ["body"]]).map
      (fun p => (p.word, p.sccSize)) = [("thing", 2), ("entity", 2)] := by
  decide

/-! ## C1: only in-cycle words are emitted -/

/-- C1: every emitted record is in-cycle — its component in the word→SCC map
has more than one member, or the dependency graph has a self-edge at its
word — and every word whose component is not in-cycle yields no record. -/
theorem buildPrimes_in_cycle (graph : List (String × List String))
    (idx : List (String × List DefEntry)) (counts : List (String × Nat))
    (selfRefs : List String) (sccs : List (List String)) :
    (∀ p ∈ buildPrimes graph idx counts selfRefs sccs,
        ∃ scc, alGet (wordToSCC sccs) p.word = some scc ∧ p.sccSize = scc.length ∧
          (1 < scc.length ∨ p.word ∈ adj graph p.word)) ∧
    (∀ w scc, alGet (wordToSCC sccs) w = some scc →
      ¬ (1 < scc.length ∨ w ∈ adj graph w) →
      ∀ p ∈ buildPrimes graph idx counts selfRefs sccs, p.word ≠ w) := by
  constructor
  · intro p hp
    obtain ⟨e, he, hc, rfl⟩ := (mem_buildPrimes _ _ _ _ _ _).mp hp
    refine ⟨e.2, ?_, ?_, ?_⟩
    · have := mem_alGet_of_nodupKeys _ (wordToSCC_nodupKeys sccs) e he
      simpa [mkPrimeRecord] using this
    · simp [mkPrimeRecord]
    · simpa [mkPrimeRecord] using hc
  · intro w scc hw hnc p hp heq
    obtain ⟨e, he, hc, rfl⟩ := (mem_buildPrimes _ _ _ _ _ _).mp hp
    have hword : e.1 = w := by simpa [mkPrimeRecord] using heq
    subst hword
    have := mem_alGet_of_nodupKeys _ (wordToSCC_nodupKeys sccs) e he
    rw [this] at hw
    obtain rfl : e.2 = scc := by simpa using hw
    exact hnc hc

/-- Witness for C1 on the toy corpus: the record of `thing` is in-cycle, and no
record is emitted for `body`, whose singleton component has no self-loop. -/
theorem buildPrimes_in_cycle_witness :
    ((mkPrimeRecord toyGraph toyTables.lemmaToDefinitions toyTables.definitionWordCounts
        toyTables.selfReferences "thing" ["thing", "entity"]) ∈
      buildPrimes toyGraph toyTables.lemmaToDefinitions toyTables.definitionWordCounts
        toyTables.selfReferences [["thing", "entity"], ["body"]]) ∧
    (∃ scc, alGet (wordToSCC [["thing", "entity"], ["body"]])
        (mkPrimeRecord toyGraph toyTables.lemmaToDefinitions toyTables.definitionWordCounts
          toyTables.selfReferences "thing" ["thing", "entity"]).word = some scc ∧
        (mkPrimeRecord toyGraph toyTables.lemmaToDefinitions toyTables.definitionWordCounts
          toyTables.selfReferences "thing" ["thing", "entity"]).sccSize = scc.length ∧
        (1 < scc.length ∨
          (mkPrimeRecord toyGraph toyTables.lemmaToDefinitions toyTables.definitionWordCounts
            toyTables.selfReferences "thing" ["thing", "entity"]).word ∈
            adj toyGraph (mkPrimeRecord toyGraph toyTables.lemmaToDefinitions
              toyTables.definitionWordCounts toyTables.selfReferences "thing"
              ["thing", "entity"]).word)) ∧
    ((mkPrimeRecord toyGraph toyTables.lemmaToDefinitions toyTables.definitionWordCounts
        toyTables.selfReferences "thing" ["thing", "entity"]).word ≠ "body") :=
  ⟨by decide,
   (buildPrimes_in_cycle toyGraph toyTables.lemmaToDefinitions
      toyTables.definitionWordCounts toyTables.selfReferences
      [["thing", "entity"], ["body"]]).1 _ (by decide),
   (buildPrimes_in_cycle toyGraph toyTables.lemmaToDefinitions
      toyTables.definitionWordCounts toyTables.selfReferences
      [["thing", "entity"], ["body"]]).2 "body" ["body"] (by decide) (by decide) _ (by decide)⟩

/-! ## C9: every emitted record scores at least the in-cycle base -/

theorem calculatePrimeScore_inCycle_ge (word : String) (s : Nat) (hl : Bool) (rc : Nat)
    (sr : Bool) : 50 ≤ calculatePrimeScore word s hl rc sr true := by
  unfold calculatePrimeScore
  have h2 : 0 ≤ (if 1 < s then min (Real.logb 10 (s : ℝ) * 15) 30 else 0 : ℝ) := by
    split
    · rename_i hs
      refine le_min (mul_nonneg ?_ (by norm_num)) (by norm_num)
      refine Real.logb_nonneg (by norm_num) ?_
      exact_mod_cast Nat.one_le_of_lt hs
    · exact le_refl _
  have h3 : 0 ≤ (if hl then (30 : ℝ) else 0) := by split <;> norm_num
  have h4 : 0 ≤ (if sr then (20 : ℝ) else 0) := by split <;> norm_num
  have h5 : 0 ≤ (if rc ≠ 0 then Real.logb 10 (rc : ℝ) * 8 else 0 : ℝ) := by
    split
    · rename_i hrc
      refine mul_nonneg (Real.logb_nonneg (by norm_num) ?_) (by norm_num)
      exact_mod_cast Nat.one_le_iff_ne_zero.mpr hrc
    · exact le_refl _
  have h6 : 0 ≤ (if word.length ≤ 4 then (10 : ℝ) else if word.length ≤ 6 then 5 else 0) := by
    split
    · norm_num
    · split <;> norm_num
  simp only [if_true]
  linarith

/-- C9: every record of the final output has score at least 50: it is emitted
only when in-cycle, so the in-cycle base contribution is always added, and all
other score contributions are non-negative. -/
theorem buildPrimes_score_ge (graph : List (String × List String))
    (idx : List (String × List DefEntry)) (counts : List (String × Nat))
    (selfRefs : List String) (sccs : List (List String)) :
    ∀ p ∈ buildPrimes graph idx counts selfRefs sccs, 50 ≤ primeScore p := by
  intro p hp
  obtain ⟨e, he, hc, rfl⟩ := (mem_buildPrimes _ _ _ _ _ _).mp hp
  have hic : (mkPrimeRecord graph idx counts selfRefs e.1 e.2).isInCycle = true := by
    simp only [mkPrimeRecord, Bool.or_eq_true, decide_eq_true_eq]
    exact hc
  unfold primeScore
  rw [hic]
  exact calculatePrimeScore_inCycle_ge _ _ _ _ _

/-- Witness for C9 at the toy corpus' record of `thing`. -/
theorem buildPrimes_score_ge_witness :
    50 ≤ primeScore (mkPrimeRecord toyGraph toyTables.lemmaToDefinitions
      toyTables.definitionWordCounts toyTables.selfReferences "thing" ["thing", "entity"]) :=
  buildPrimes_score_ge toyGraph toyTables.lemmaToDefinitions toyTables.definitionWordCounts
    toyTables.selfReferences [["thing", "entity"], ["body"]] _ (by decide)

/-! ## C6: shape of the score contributions -/

theorem sccTerm_nonneg (s : Nat) :
    0 ≤ (if 1 < s then min (Real.logb 10 (s : ℝ) * 15) 30 else 0 : ℝ) := by
  split
  · rename_i hs
    refine le_min (mul_nonneg ?_ (by norm_num)) (by norm_num)
    refine Real.logb_nonneg (by norm_num) ?_
    exact_mod_cast Nat.one_le_of_lt hs
  · exact le_refl _

theorem sccTerm_mono (s t : Nat) (hst : s ≤ t) :
    (if 1 < s then min (Real.logb 10 (s : ℝ) * 15) 30 else 0 : ℝ) ≤
      (if 1 < t then min (Real.logb 10 (t : ℝ) * 15) 30 else 0 : ℝ) := by
  by_cases hs : 1 < s
  · have ht : 1 < t := lt_of_lt_of_le hs hst
    rw [if_pos hs, if_pos ht]
    refine min_le_min (mul_le_mul_of_nonneg_right ?_ (by norm_num)) (le_refl _)
    refine Real.logb_le_logb_of_le (by norm_num) ?_ (by exact_mod_cast hst)
    exact_mod_cast Nat.lt_of_lt_of_le Nat.zero_lt_one (Nat.one_le_of_lt hs)
  · rw [if_neg hs]
    exact sccTerm_nonneg t

/-- C6: in `calculatePrimeScore`, the SCC-size contribution equals the capped
logarithmic term `min (logb 10 size * 15) 30` exactly when the size exceeds
one, vanishes otherwise, is monotone, and is bounded by the cap 30; the
frequency contribution equals `logb 10 count * 8` for positive counts, is
exactly zero at count zero, and is strictly increasing with the count. -/
theorem calculatePrimeScore_contributions :
    (∀ (w : String) (hl sr ic : Bool) (rc s : Nat), 1 < s →
      calculatePrimeScore w s hl rc sr ic =
        calculatePrimeScore w 1 hl rc sr ic + min (Real.logb 10 (s : ℝ) * 15) 30) ∧
    (∀ (w : String) (hl sr ic : Bool) (rc s t : Nat), s ≤ t →
      calculatePrimeScore w s hl rc sr ic ≤ calculatePrimeScore w t hl rc sr ic) ∧
    (∀ (w : String) (hl sr ic : Bool) (rc s : Nat),
      calculatePrimeScore w s hl rc sr ic ≤ calculatePrimeScore w 1 hl rc sr ic + 30) ∧
    (∀ (w : String) (hl sr ic : Bool) (rc s : Nat), s ≤ 1 →
      calculatePrimeScore w s hl rc sr ic = calculatePrimeScore w 1 hl rc sr ic) ∧
    (∀ (w : String) (hl sr ic : Bool) (s c : Nat), 0 < c →
      calculatePrimeScore w s hl c sr ic =
        calculatePrimeScore w s hl 0 sr ic + Real.logb 10 (c : ℝ) * 8) ∧
    (∀ (w : String) (hl sr ic : Bool) (s c d : Nat), 0 < c → c < d →
      calculatePrimeScore w s hl c sr ic < calculatePrimeScore w s hl d sr ic) := by
  refine ⟨?_, ?_, ?_, ?_, ?_, ?_⟩
  · intro w hl sr ic rc s hs
    unfold calculatePrimeScore
    rw [if_pos hs, if_neg (by omega : ¬ 1 < 1)]
    ring
  · intro w hl sr ic rc s t hst
    unfold calculatePrimeScore
    have := sccTerm_mono s t hst
    linarith
  · intro w hl sr ic rc s
    unfold calculatePrimeScore
    rw [if_neg (by omega : ¬ 1 < 1)]
    have h30 : (if 1 < s then min (Real.logb 10 (s : ℝ) * 15) 30 else 0 : ℝ) ≤ 30 := by
      split
      · exact min_le_right _ _
      · norm_num
    linarith
  · intro w hl sr ic rc s hs
    unfold calculatePrimeScore
    rw [if_neg (by omega : ¬ 1 < s), if_neg (by omega : ¬ 1 < 1)]
  · intro w hl sr ic s c hc
    unfold calculatePrimeScore
    rw [if_pos (by omega : c ≠ 0), if_neg (by omega : ¬ (0 : Nat) ≠ 0)]
    ring
  · intro w hl sr ic s c d hc hcd
    unfold calculatePrimeScore
    rw [if_pos (by omega : c ≠ 0), if_pos (by omega : d ≠ 0)]
    have hlt : Real.logb 10 (c : ℝ) < Real.logb 10 (d : ℝ) := by
      refine Real.logb_lt_logb (by norm_num) ?_ (by exact_mod_cast hcd)
      exact_mod_cast hc
    have := mul_lt_mul_of_pos_right hlt (by norm_num : (0 : ℝ) < 8)
    linarith

/-- Witness for C6 at concrete sizes and counts. -/
theorem calculatePrimeScore_contributions_witness :
    (calculatePrimeScore "time" 10 false 0 false true =
      calculatePrimeScore "time" 1 false 0 false true +
        min (Real.logb 10 ((10 : Nat) : ℝ) * 15) 30) ∧
    (calculatePrimeScore "time" 2 false 0 false true ≤
      calculatePrimeScore "time" 3 false 0 false true) ∧
    (calculatePrimeScore "time" 1000 false 0 false true ≤
      calculatePrimeScore "time" 1 false 0 false true + 30) ∧
    (calculatePrimeScore "time" 0 false 0 false true =
      calculatePrimeScore "time" 1 false 0 false true) ∧
    (calculatePrimeScore "time" 1 false 5 false true =
      calculatePrimeScore "time" 1 false 0 false true + Real.logb 10 ((5 : Nat) : ℝ) * 8) ∧
    (calculatePrimeScore "time" 1 false 5 false true <
      calculatePrimeScore "time" 1 false 50 false true) :=
  ⟨calculatePrimeScore_contributions.1 "time" false false true 0 10 (by norm_num),
   calculatePrimeScore_contributions.2.1 "time" false false true 0 2 3 (by norm_num),
   calculatePrimeScore_contributions.2.2.1 "time" false false true 0 1000,
   calculatePrimeScore_contributions.2.2.2.1 "time" false false true 0 0 (by norm_num),
   calculatePrimeScore_contributions.2.2.2.2.1 "time" false false true 1 5 (by norm_num),
   calculatePrimeScore_contributions.2.2.2.2.2 "time" false false true 1 5 50 (by norm_num)
     (by norm_num)⟩

/-! ## C7: the final sort is descending and stable -/

theorem mem_insertByScore (p x : PrimeRecord) (l : List PrimeRecord) :
    x ∈ insertByScore p l ↔ x = p ∨ x ∈ l := by
  induction l with
  | nil => simp [insertByScore]
  | cons q qs ih =>
    unfold insertByScore
    split <;> simp only [List.mem_cons, ih] <;> tauto

theorem insertByScore_sorted (p : PrimeRecord) (l : List PrimeRecord)
    (h : l.Sorted (fun a b => primeScore b ≤ primeScore a)) :
    (insertByScore p l).Sorted (fun a b => primeScore b ≤ primeScore a) := by
  induction l with
  | nil => simp [insertByScore]
  | cons q qs ih =>
    rw [List.sorted_cons] at h
    unfold insertByScore
    split
    · rename_i hpq
      rw [List.sorted_cons]
      refine ⟨?_, List.sorted_cons.mpr h⟩
      intro b hb
      rcases List.mem_cons.mp hb with rfl | hb
      · exact le_of_lt hpq
      · exact le_trans (h.1 b hb) (le_of_lt hpq)
    · rename_i hpq
      rw [List.sorted_cons]
      refine ⟨?_, ih h.2⟩
      intro b hb
      rcases (mem_insertByScore p b qs).mp hb with rfl | hb
      · exact le_of_not_lt hpq
      · exact h.1 b hb

open Classical in
theorem filter_insertByScore (p : PrimeRecord) (l : List PrimeRecord) (s : ℝ)
    (hl : l.Sorted (fun a b => primeScore b ≤ primeScore a)) :
    (insertByScore p l).filter (fun x => decide (primeScore x = s)) =
      if primeScore p = s then
        l.filter (fun x => decide (primeScore x = s)) ++ [p]
      else l.filter (fun x => decide (primeScore x = s)) := by
  induction l with
  | nil =>
    unfold insertByScore
    by_cases hp : primeScore p = s
    · simp [hp]
    · simp [hp]
  | cons q qs ih =>
    rw [List.sorted_cons] at hl
    unfold insertByScore
    split
    · rename_i hpq
      by_cases hp : primeScore p = s
      · rw [if_pos hp]
        have hnil : (q :: qs).filter (fun x => decide (primeScore x = s)) = [] := by
          rw [List.filter_eq_nil_iff]
          intro x hx
          have hxq : primeScore x ≤ primeScore q := by
            rcases List.mem_cons.mp hx with rfl | hx
            · exact le_refl _
            · exact hl.1 x hx
          have : primeScore x < primeScore p := lt_of_le_of_lt hxq hpq
          simp only [decide_eq_true_eq]
          intro hxs
          rw [hp] at this
          rw [hxs] at this
          exact lt_irrefl _ this
        rw [List.filter_cons_of_pos (by simp [hp]), hnil]
        simpa using hnil
      · rw [if_neg hp]
        rw [List.filter_cons_of_neg (by simp [hp])]
    · rename_i hpq
      by_cases hq : primeScore q = s
      · rw [List.filter_cons_of_pos (by simp [hq]), ih hl.2,
          List.filter_cons_of_pos (by simp [hq])]
        by_cases hp : primeScore p = s
        · rw [if_pos hp, if_pos hp, List.cons_append]
        · rw [if_neg hp, if_neg hp]
      · rw [List.filter_cons_of_neg (by simp [hq]), ih hl.2,
          List.filter_cons_of_neg (by simp [hq])]

theorem sortPrimes_foldl_sorted (l : List PrimeRecord) (acc : List PrimeRecord)
    (hacc : acc.Sorted (fun a b => primeScore b ≤ primeScore a)) :
    (l.foldl (fun acc p => insertByScore p acc) acc).Sorted
      (fun a b => primeScore b ≤ primeScore a) := by
  induction l generalizing acc with
  | nil => exact hacc
  | cons p l ih => exact ih _ (insertByScore_sorted p acc hacc)

open Classical in
theorem sortPrimes_foldl_filter (l : List PrimeRecord) (acc : List PrimeRecord)
    (hacc : acc.Sorted (fun a b => primeScore b ≤ primeScore a)) (s : ℝ) :
    (l.foldl (fun acc p => insertByScore p acc) acc).filter
        (fun x => decide (primeScore x = s)) =
      acc.filter (fun x => decide (primeScore x = s)) ++
        l.filter (fun x => decide (primeScore x = s)) := by
  induction l generalizing acc with
  | nil => simp
  | cons p l ih =>
    simp only [List.foldl_cons]
    rw [ih _ (insertByScore_sorted p acc hacc), filter_insertByScore p acc s hacc]
    by_cases hp : primeScore p = s
    · rw [if_pos hp, List.filter_cons_of_pos (by simp [hp]), List.append_assoc,
        List.singleton_append]
    · rw [if_neg hp, List.filter_cons_of_neg (by simp [hp])]

open Classical in
/-- C7: the final list is sorted by descending score, and the sort is stable —
for every score value, the records carrying that score appear in the same
order as in the unsorted list. -/
theorem sortPrimes_sorted_stable (l : List PrimeRecord) :
    (sortPrimes l).Sorted (fun a b => primeScore b ≤ primeScore a) ∧
    ∀ s : ℝ, (sortPrimes l).filter (fun p => decide (primeScore p = s)) =
      l.filter (fun p => decide (primeScore p = s)) := by
  constructor
  · exact sortPrimes_foldl_sorted l [] (by simp)
  · intro s
    unfold sortPrimes
    rw [sortPrimes_foldl_filter l [] (by simp) s]
    simp

/-! ## C8: concept-set close emits iff definitions were accumulated -/

theorem stepEntryOpen_synsetDefinitions (line : List Char) (st : ParseState) :
    (stepEntryOpen line st).synsetDefinitions = st.synsetDefinitions := by
  unfold stepEntryOpen
  split <;> rfl

theorem stepLemma_synsetDefinitions (line : List Char) (st : ParseState) :
    (stepLemma line st).synsetDefinitions = st.synsetDefinitions := by
  unfold stepLemma
  split <;> (try split) <;> rfl

theorem stepSense_synsetDefinitions (line : List Char) (st : ParseState) :
    (stepSense line st).synsetDefinitions = st.synsetDefinitions := by
  unfold stepSense
  split <;> (try split) <;> rfl

theorem stepEntryClose_synsetDefinitions (line : List Char) (st : ParseState) :
    (stepEntryClose line st).synsetDefinitions = st.synsetDefinitions := by
  unfold stepEntryClose
  split <;> (try split) <;> rfl

theorem stepSynsetOpen_synsetDefinitions (line : List Char) (st : ParseState) :
    (stepSynsetOpen line st).synsetDefinitions = st.synsetDefinitions := by
  unfold stepSynsetOpen
  split <;> (try split) <;> rfl

theorem stepDefinition_synsetDefinitions (line : List Char) (st : ParseState) :
    (stepDefinition line st).synsetDefinitions = st.synsetDefinitions := by
  unfold stepDefinition
  split <;> (try split) <;> (try split) <;> rfl

theorem preClose_synsetDefinitions (line : List Char) (st : ParseState) :
    (preClose line st).synsetDefinitions = st.synsetDefinitions := by
  unfold preClose
  rw [stepDefinition_synsetDefinitions, stepSynsetOpen_synsetDefinitions,
    stepEntryClose_synsetDefinitions, stepSense_synsetDefinitions,
    stepLemma_synsetDefinitions, stepEntryOpen_synsetDefinitions]

/-- C8: when the line loop reaches a line carrying the concept-set end marker
with a concept set open (after the earlier phases of the same line), the set
is entered into the table keyed by its identifier iff at least one definition
was accumulated — with none the table is left unchanged, with no error — and
the transient state is discarded either way.  The phases before the end-marker
check never touch the table. -/
theorem stepSynsetClose_spec :
    (∀ (st : ParseState) (line : List Char) (syn : SynsetState),
      containsSub "</Synset>".toList line = true →
      (preClose line st).currentSynset = some syn →
      (stepLine st (String.mk line)).synsetDefinitions =
        (if syn.definitions.length > 0 then
          alSet st.synsetDefinitions syn.id ⟨syn.definitions, syn.partOfSpeech⟩
        else st.synsetDefinitions) ∧
      (stepLine st (String.mk line)).currentSynset = none) ∧
    (∀ (st : ParseState) (line : List Char),
      (preClose line st).synsetDefinitions = st.synsetDefinitions) := by
  refine ⟨?_, fun st line => preClose_synsetDefinitions line st⟩
  intro st line syn hmark hsyn
  have hstep : stepLine st (String.mk line) = stepSynsetClose line (preClose line st) := rfl
  rw [hstep]
  unfold stepSynsetClose
  rw [if_pos (by exact_mod_cast hmark), hsyn]
  exact ⟨by rw [preClose_synsetDefinitions], rfl⟩

/-- Witness for C8: a concrete open concept set with one definition is entered
on `</Synset>`. -/
theorem stepSynsetClose_spec_witness :
    (containsSub "</Synset>".toList "</Synset>".toList = true) ∧
    ((preClose "</Synset>".toList
        ⟨none, some ⟨"s1", "n", ["a thing"]⟩, false, "", [], []⟩).currentSynset =
      some ⟨"s1", "n", ["a thing"]⟩) ∧
    ((stepLine ⟨none, some ⟨"s1", "n", ["a thing"]⟩, false, "", [], []⟩
        (String.mk "</Synset>".toList)).synsetDefinitions =
      (if (["a thing"] : List String).length > 0 then
        alSet ([] : List (String × SynsetData)) "s1" ⟨["a thing"], "n"⟩
      else []) ∧
      (stepLine ⟨none, some ⟨"s1", "n", ["a thing"]⟩, false, "", [], []⟩
        (String.mk "</Synset>".toList)).currentSynset = none) :=
  ⟨by decide, by decide,
   stepSynsetClose_spec.1 ⟨none, some ⟨"s1", "n", ["a thing"]⟩, false, "", [], []⟩
     "</Synset>".toList ⟨"s1", "n", ["a thing"]⟩ (by decide) (by decide)⟩

/-! ## Infrastructure for the SCC correctness development -/

theorem filter_length_mono {α : Type} (l : List α) (p q : α → Bool)
    (h : ∀ x, q x = true → p x = true) : (l.filter q).length ≤ (l.filter p).length := by
  induction l with
  | nil => simp
  | cons a l ih =>
    by_cases hq : q a = true
    · rw [List.filter_cons_of_pos hq, List.filter_cons_of_pos (h a hq)]
      simpa using ih
    · rw [List.filter_cons_of_neg (by simpa using hq)]
      by_cases hp : p a = true
      · rw [List.filter_cons_of_pos hp]
        exact le_trans ih (by simp)
      · rw [List.filter_cons_of_neg (by simpa using hp)]
        exact ih

theorem filter_length_lt {α : Type} (l : List α) (p q : α → Bool)
    (h : ∀ x, q x = true → p x = true) (v : α) (hv : v ∈ l) (hpv : p v = true)
    (hqv : q v = false) : (l.filter q).length < (l.filter p).length := by
  induction l with
  | nil => simp at hv
  | cons a l ih =>
    rcases List.mem_cons.mp hv with rfl | hv
    · rw [List.filter_cons_of_pos hpv, List.filter_cons_of_neg (by simp [hqv])]
      exact Nat.lt_succ_of_le (filter_length_mono l p q h)
    · by_cases hq : q a = true
      · rw [List.filter_cons_of_pos hq, List.filter_cons_of_pos (h a hq)]
        simpa using ih hv
      · rw [List.filter_cons_of_neg (by simpa using hq)]
        by_cases hp : p a = true
        · rw [List.filter_cons_of_pos hp]
          exact Nat.lt_succ_of_le (le_of_lt (ih hv))
        · rw [List.filter_cons_of_neg (by simpa using hp)]
          exact ih hv

theorem unvisitedCount_mono {α : Type} [DecidableEq α] (g : List (α × List α))
    (st st' : TarjanState α) (h : ∀ w i, idxO st w = some i → idxO st' w = some i) :
    unvisitedCount g st' ≤ unvisitedCount g st := by
  unfold idxO at h
  refine filter_length_mono _ _ _ ?_
  intro x hx
  simp only [Option.isNone_iff_eq_none] at hx ⊢
  by_contra hne
  obtain ⟨i, hi⟩ := Option.ne_none_iff_exists'.mp hne
  rw [h x i hi] at hx
  exact Option.noConfusion hx

theorem unvisitedCount_lt {α : Type} [DecidableEq α] (g : List (α × List α))
    (st st' : TarjanState α) (h : ∀ w i, idxO st w = some i → idxO st' w = some i)
    (v : α) (hv : v ∈ nodeList g) (hnv : ¬ visited st v) (hv' : visited st' v) :
    unvisitedCount g st' < unvisitedCount g st := by
  unfold idxO at h
  unfold visited at hnv hv'
  refine filter_length_lt _ _ _ ?_ v hv ?_ ?_
  · intro x hx
    simp only [Option.isNone_iff_eq_none] at hx ⊢
    by_contra hne
    obtain ⟨i, hi⟩ := Option.ne_none_iff_exists'.mp hne
    rw [h x i hi] at hx
    exact Option.noConfusion hx
  · cases hoc : alGet st.indices v with
    | none => simp
    | some i => rw [hoc] at hnv; simp at hnv
  · cases hoc : alGet st'.indices v with
    | none => rw [hoc] at hv'; simp at hv'
    | some i => simp

theorem popWhileNe_spec {α : Type} [DecidableEq α] (v : α) (post : List α) :
    ∀ pre : List α, v ∉ pre → popWhileNe v (pre ++ v :: post) = (pre ++ [v], post) := by
  intro pre
  induction pre with
  | nil => simp [popWhileNe]
  | cons a pre ih =>
    intro hv
    have hav : ¬ a = v := fun h => hv (by simp [h])
    simp only [List.cons_append, popWhileNe, if_neg hav, List.append_eq]
    rw [ih (fun h => hv (List.mem_cons_of_mem _ h))]

theorem mem_foldl_setDel {α : Type} [DecidableEq α] (l : List α) (s : List α) (x : α) :
    x ∈ l.foldl setDel s ↔ x ∈ s ∧ x ∉ l := by
  induction l generalizing s with
  | nil => simp
  | cons a l ih =>
    simp only [List.foldl_cons, ih, setDel, List.mem_filter, List.mem_cons,
      decide_eq_true_eq]
    tauto

theorem key_mem_nodeList {α : Type} [DecidableEq α] (g : List (α × List α)) (k : α)
    (h : k ∈ g.map Prod.fst) : k ∈ nodeList g := by
  unfold nodeList
  rw [List.mem_dedup]
  exact List.mem_append.mpr (Or.inl h)

theorem edge_mem_nodeList {α : Type} [DecidableEq α] (g : List (α × List α)) (u y : α)
    (h : Edge g u y) : y ∈ nodeList g := by
  unfold Edge adj at h
  unfold nodeList
  rw [List.mem_dedup, List.mem_append]
  cases hg : alGet g u with
  | none => rw [hg] at h; simp at h
  | some l =>
    rw [hg] at h
    simp only [Option.getD_some] at h
    have hk : u ∈ g.map Prod.fst :=
      mem_keys_of_alGet_isSome g u (by rw [hg]; rfl)
    refine Or.inr (List.mem_flatMap.mpr ⟨u, hk, ?_⟩)
    unfold adj
    rw [hg]
    simpa using h

theorem reach_trans {α : Type} [DecidableEq α] (g : List (α × List α)) {u v w : α}
    (h1 : Reach g u v) (h2 : Reach g v w) : Reach g u w :=
  Relation.ReflTransGen.trans h1 h2

theorem reach_mem_nodeList {α : Type} [DecidableEq α] (g : List (α × List α)) {u y : α}
    (h : Reach g u y) (hu : u ∈ nodeList g) : y ∈ nodeList g := by
  induction h with
  | refl => exact hu
  | tail _ he ih => exact edge_mem_nodeList g _ _ he

theorem stack_nodup {α : Type} [DecidableEq α] {g : List (α × List α)}
    {st : TarjanState α} (wf : TarjanWF g st) : st.stack.Nodup := by
  refine List.Pairwise.imp ?_ wf.stackSorted
  intro a b h heq
  rw [heq] at h
  exact lt_irrefl _ h

theorem countP_eq_one_of_nodup_flatten {α : Type} [DecidableEq α]
    (sccs : List (List α)) (hnd : sccs.flatten.Nodup) (u : α) (hu : u ∈ sccs.flatten) :
    sccs.countP (fun c => decide (u ∈ c)) = 1 := by
  induction sccs with
  | nil => simp at hu
  | cons c rest ih =>
    rw [List.flatten_cons] at hu hnd
    rw [List.countP_cons]
    rcases List.mem_append.mp hu with hc | hr
    · have hnr : u ∉ rest.flatten := by
        intro habs
        exact (List.disjoint_of_nodup_append hnd) hc habs
      have h0 : rest.countP (fun c => decide (u ∈ c)) = 0 := by
        rw [List.countP_eq_zero]
        intro c' hc'
        simp only [decide_eq_true_eq]
        intro habs
        exact hnr (List.mem_flatten.mpr ⟨c', hc', habs⟩)
      simp [h0, hc]
    · have hnc : u ∉ c := by
        intro habs
        exact (List.disjoint_of_nodup_append hnd) habs hr
      have := ih (List.Nodup.sublist (List.sublist_append_right c rest.flatten) hnd) hr
      simp [this, hnc]

theorem alGet_alSet_isSome_iff {α β : Type} [DecidableEq α] (m : List (α × β)) (k k' : α)
    (v : β) : (alGet (alSet m k v) k').isSome ↔ k' = k ∨ (alGet m k').isSome := by
  by_cases h : k' = k
  · subst h
    simp [alGet_alSet_self]
  · rw [alGet_alSet_ne m k k' v h]
    simp [h]

theorem visited_push_iff {α : Type} [DecidableEq α] (st : TarjanState α) (v w : α)
    (i : Nat) :
    visited ⟨alSet st.indices v i, alSet st.lowlinks v i,
      setAdd st.onStack v, st.stack ++ [v], st.sccs, st.index + 1⟩ w ↔
      w = v ∨ visited st w := by
  unfold visited
  exact alGet_alSet_isSome_iff st.indices v w i

theorem wf_push {α : Type} [DecidableEq α] {g : List (α × List α)} {st : TarjanState α}
    (wf : TarjanWF g st) (v : α) (hnv : ¬ visited st v) (hv : v ∈ nodeList g) :
    TarjanWF g ⟨alSet st.indices v st.index, alSet st.lowlinks v st.index,
      setAdd st.onStack v, st.stack ++ [v], st.sccs, st.index + 1⟩ := by
  set st1 : TarjanState α := ⟨alSet st.indices v st.index, alSet st.lowlinks v st.index,
    setAdd st.onStack v, st.stack ++ [v], st.sccs, st.index + 1⟩ with hst1
  have hidxv : idxO st1 v = some st.index := alGet_alSet_self st.indices v st.index
  have hlowv : alGet st1.lowlinks v = some st.index := alGet_alSet_self st.lowlinks v st.index
  have hidxne : ∀ w, w ≠ v → idxO st1 w = idxO st w := fun w hw =>
    alGet_alSet_ne st.indices v w st.index hw
  have hlowne : ∀ w, w ≠ v → alGet st1.lowlinks w = alGet st.lowlinks w := fun w hw =>
    alGet_alSet_ne st.lowlinks v w st.index hw
  have hvisited : ∀ w, visited st1 w ↔ w = v ∨ visited st w := fun w =>
    visited_push_iff st v w st.index
  have hstackne : ∀ w ∈ st.stack, w ≠ v := by
    intro w hw heq
    rw [heq] at hw
    exact hnv (wf.stackIdx v hw)
  have hidxD_old : ∀ w ∈ st.stack, idxD st1 w = idxD st w := by
    intro w hw
    unfold idxD
    rw [show alGet st1.indices w = alGet st.indices w from hidxne w (hstackne w hw)]
  have hidxD_v : idxD st1 v = st.index := by
    unfold idxD
    rw [show alGet st1.indices v = some st.index from hidxv]
    rfl
  have hidx_old_lt : ∀ w ∈ st.stack, idxD st w < st.index := by
    intro w hw
    obtain ⟨i, hi⟩ := Option.isSome_iff_exists.mp (wf.stackIdx w hw)
    have := wf.idxLt w i hi
    unfold idxD
    rw [show alGet st.indices w = some i from hi]
    exact this
  constructor
  · intro w hw
    rcases (hvisited w).mp hw with rfl | hw
    · exact hv
    · exact wf.idxNode w hw
  · intro w hw
    rcases List.mem_append.mp hw with hw | hw
    · exact (hvisited w).mpr (Or.inr (wf.stackIdx w hw))
    · rw [List.mem_singleton] at hw
      subst hw
      exact (hvisited w).mpr (Or.inl rfl)
  · rw [show st1.stack = st.stack ++ [v] from rfl, List.pairwise_append]
    refine ⟨?_, by simp, ?_⟩
    · refine List.Pairwise.imp_of_mem ?_ wf.stackSorted
      intro a b ha hb hab
      rw [hidxD_old a ha, hidxD_old b hb]
      exact hab
    · intro a ha b hb
      rw [List.mem_singleton] at hb
      subst hb
      rw [hidxD_old a ha, hidxD_v]
      exact hidx_old_lt a ha
  · intro w
    rw [show st1.onStack = setAdd st.onStack v from rfl, mem_setAdd,
      show st1.stack = st.stack ++ [v] from rfl, List.mem_append, List.mem_singleton,
      wf.onStackIff w]
  · intro w i hi
    by_cases hw : w = v
    · subst hw
      rw [hidxv] at hi
      obtain rfl : st.index = i := by simpa using hi
      exact Nat.lt_succ_self _
    · rw [hidxne w hw] at hi
      exact Nat.lt_succ_of_lt (wf.idxLt w i hi)
  · intro w w' i hw hw'
    by_cases h1 : w = v <;> by_cases h2 : w' = v
    · subst h1; subst h2; rfl
    · subst h1
      rw [hidxv] at hw
      obtain rfl : st.index = i := by simpa using hw
      rw [hidxne w' h2] at hw'
      exact absurd (wf.idxLt w' _ hw') (lt_irrefl _)
    · subst h2
      rw [hidxv] at hw'
      obtain rfl : st.index = i := by simpa using hw'
      rw [hidxne w h1] at hw
      exact absurd (wf.idxLt w _ hw) (lt_irrefl _)
    · rw [hidxne w h1] at hw
      rw [hidxne w' h2] at hw'
      exact wf.idxInj w w' i hw hw'
  · intro w
    by_cases hw : w = v
    · subst hw
      rw [hlowv]
      simp [hvisited]
    · rw [hlowne w hw]
      rw [hvisited w]
      simp only [hw, false_or]
      exact wf.lowDef w
  · intro w hw
    by_cases hweq : w = v
    · rw [hweq]
      unfold lowD idxD
      rw [hlowv, show alGet st1.indices v = some st.index from hidxv]
    · rcases (hvisited w).mp hw with h | h
      · exact absurd h hweq
      · unfold lowD idxD
        rw [hlowne w hweq,
          show alGet st1.indices w = alGet st.indices w from hidxne w hweq]
        exact wf.lowLe w h
  · intro w
    rw [hvisited w, wf.partStack w,
      show st1.stack = st.stack ++ [v] from rfl, List.mem_append, List.mem_singleton,
      show sccsFlat st1 = sccsFlat st from rfl]
    tauto
  · intro w hw
    rcases List.mem_append.mp hw with hw | hw
    · exact wf.stackFlatDisj w hw
    · rw [List.mem_singleton] at hw
      subst hw
      intro habs
      exact hnv ((wf.partStack _).mpr (Or.inr habs))
  · exact wf.flatNodup
  · exact wf.closure
  · exact wf.sccConn
  · exact wf.sccMax
  · exact wf.sccNE
  · intro u hu
    rcases List.mem_append.mp hu with hu | hu
    · obtain ⟨z, hz, hzi, hzr⟩ := wf.lowStack u hu
      refine ⟨z, List.mem_append.mpr (Or.inl hz), ?_, hzr⟩
      rw [hidxD_old z hz]
      unfold lowD
      rw [hlowne u (hstackne u hu)]
      exact hzi
    · rw [List.mem_singleton] at hu
      subst hu
      refine ⟨u, List.mem_append.mpr (Or.inr (by simp)), ?_, Relation.ReflTransGen.refl⟩
      rw [hidxD_v]
      unfold lowD
      rw [hlowv]
      rfl

theorem wf_lowUpdate {α : Type} [DecidableEq α] {g : List (α × List α)}
    {st : TarjanState α} (wf : TarjanWF g st) (v : α) (hv : v ∈ st.stack) (m : Nat)
    (hm : m ≤ lowD st v) (hz : ∃ z ∈ st.stack, idxD st z = m ∧ Reach g v z) :
    TarjanWF g { st with lowlinks := alSet st.lowlinks v m } := by
  set st' : TarjanState α := { st with lowlinks := alSet st.lowlinks v m } with hst'
  have hlowv : alGet st'.lowlinks v = some m := alGet_alSet_self st.lowlinks v m
  have hlowne : ∀ w, w ≠ v → alGet st'.lowlinks w = alGet st.lowlinks w := fun w hw =>
    alGet_alSet_ne st.lowlinks v w m hw
  have hvis : visited st v := wf.stackIdx v hv
  constructor
  · exact wf.idxNode
  · exact wf.stackIdx
  · exact wf.stackSorted
  · exact wf.onStackIff
  · exact wf.idxLt
  · exact wf.idxInj
  · intro w
    by_cases hw : w = v
    · subst hw
      rw [hlowv]
      simpa using hvis
    · rw [hlowne w hw]
      exact wf.lowDef w
  · intro w hw
    by_cases hweq : w = v
    · subst hweq
      unfold lowD
      rw [hlowv]
      exact le_trans hm (wf.lowLe w hw)
    · unfold lowD
      rw [hlowne w hweq]
      exact wf.lowLe w hw
  · exact wf.partStack
  · exact wf.stackFlatDisj
  · exact wf.flatNodup
  · exact wf.closure
  · exact wf.sccConn
  · exact wf.sccMax
  · exact wf.sccNE
  · intro u hu
    by_cases hueq : u = v
    · subst hueq
      obtain ⟨z, hzmem, hzi, hzr⟩ := hz
      refine ⟨z, hzmem, ?_, hzr⟩
      unfold lowD
      rw [hlowv]
      exact hzi
    · obtain ⟨z, hzmem, hzi, hzr⟩ := wf.lowStack u hu
      refine ⟨z, hzmem, ?_, hzr⟩
      unfold lowD
      rw [hlowne u hueq]
      exact hzi

theorem initTarjan_wf {α : Type} [DecidableEq α] (g : List (α × List α)) :
    TarjanWF g (initTarjan : TarjanState α) := by
  constructor
  · intro v hv; simp [initTarjan, visited, alGet] at hv
  · intro v hv; simp [initTarjan] at hv
  · simp [initTarjan]
  · intro v; simp [initTarjan]
  · intro v i hi; simp [initTarjan, idxO, alGet] at hi
  · intro v w i h1 h2; simp [initTarjan, idxO, alGet] at h1
  · intro v; simp [initTarjan, visited, alGet]
  · intro v hv; simp [initTarjan, visited, alGet] at hv
  · intro v; simp [initTarjan, visited, alGet, sccsFlat]
  · intro v hv; simp [initTarjan] at hv
  · simp [initTarjan, sccsFlat]
  · intro c hc; simp [initTarjan] at hc
  · intro c hc; simp [initTarjan] at hc
  · intro c hc; simp [initTarjan] at hc
  · intro c hc; simp [initTarjan] at hc
  · intro u hu; simp [initTarjan] at hu

theorem visited_of_idxPres {α : Type} [DecidableEq α] {st st' : TarjanState α}
    (h : ∀ w i, idxO st w = some i → idxO st' w = some i) :
    ∀ w, visited st w → visited st' w := by
  intro w hw
  obtain ⟨i, hi⟩ := Option.isSome_iff_exists.mp hw
  exact Option.isSome_iff_exists.mpr ⟨i, h w i hi⟩

theorem idxD_of_idxPres {α : Type} [DecidableEq α] {st st' : TarjanState α}
    (h : ∀ w i, idxO st w = some i → idxO st' w = some i) :
    ∀ w, visited st w → idxD st' w = idxD st w := by
  intro w hw
  obtain ⟨i, hi⟩ := Option.isSome_iff_exists.mp hw
  unfold idxD
  rw [show alGet st.indices w = some i from hi,
    show alGet st'.indices w = some i from h w i hi]

theorem not_visited_none {α : Type} [DecidableEq α] {st : TarjanState α} {w : α}
    (h : ¬ visited st w) : idxO st w = none := by
  unfold visited at h
  unfold idxO
  exact Option.not_isSome_iff_eq_none.mp (by simpa using h)

theorem vnPost_refl {α : Type} [DecidableEq α] {g : List (α × List α)} {v : α}
    {st : TarjanState α} (wf : TarjanWF g st) (hvis : visited st v)
    (hmem : v ∈ st.stack) : VNPost g v st st := by
  constructor
  · exact wf
  · exact hvis
  · exact hmem
  · intro w i hi; exact hi
  · intro w _ _; rfl
  · exact le_refl _
  · exact le_refl _
  · exact ⟨[], by simp, by simp⟩
  · exact ⟨[], by simp, by simp⟩
  · intro w i hw hi; rw [hw] at hi; exact Option.noConfusion hi
  · intro w hw hw'; exact absurd hw' hw
  · intro w hw hw'; exact absurd hw' hw
  · intro w hw hmem'; exact absurd (wf.stackIdx w hmem') hw
  · intro w hw hmem'; exact absurd (wf.stackIdx w hmem') hw
  · intro w hw hw'; exact absurd hw' hw

theorem vnPost_trans {α : Type} [DecidableEq α] {g : List (α × List α)} {v : α}
    {st1 st2 st3 : TarjanState α} (h12 : VNPost g v st1 st2)
    (h23 : VNPost g v st2 st3) : VNPost g v st1 st3 := by
  have vis12 : ∀ w, visited st1 w → visited st2 w := visited_of_idxPres h12.idxPres
  have vis23 : ∀ w, visited st2 w → visited st3 w := visited_of_idxPres h23.idxPres
  have stackMem23 : ∀ w, visited st2 w → w ∈ st3.stack → w ∈ st2.stack := by
    intro w hv hw
    obtain ⟨d2, he2, hn2⟩ := h23.stackExt
    rw [he2] at hw
    rcases List.mem_append.mp hw with h | h
    · exact h
    · exact absurd hv (hn2 w h)
  constructor
  · exact h23.wf
  · exact h12.vVis
  · exact h12.vMem
  · intro w i hi
    exact h23.idxPres w i (h12.idxPres w i hi)
  · intro w hw hne
    rw [h23.lowPresNe w (vis12 w hw) hne, h12.lowPresNe w hw hne]
  · exact le_trans h23.lowVLe h12.lowVLe
  · exact le_trans h12.ctrMono h23.ctrMono
  · obtain ⟨d1, he1, hn1⟩ := h12.stackExt
    obtain ⟨d2, he2, hn2⟩ := h23.stackExt
    refine ⟨d1 ++ d2, by rw [he2, he1, List.append_assoc], ?_⟩
    intro x hx
    rcases List.mem_append.mp hx with hx | hx
    · exact hn1 x hx
    · intro habs
      exact hn2 x hx (vis12 x habs)
  · obtain ⟨r1, he1, hn1⟩ := h12.sccsExt
    obtain ⟨r2, he2, hn2⟩ := h23.sccsExt
    refine ⟨r1 ++ r2, by rw [he2, he1, List.append_assoc], ?_⟩
    intro c hc x hx
    rcases List.mem_append.mp hc with hc | hc
    · exact hn1 c hc x hx
    · intro habs
      exact hn2 c hc x hx (vis12 x habs)
  · intro w i hw hi
    by_cases h2 : visited st2 w
    · obtain ⟨j, hj⟩ := Option.isSome_iff_exists.mp h2
      have hpres := h23.idxPres w j hj
      have hji : j = i := by
        rw [show idxO st3 w = some j from hpres] at hi
        exact Option.some.inj hi
      exact h12.newBounds w i hw (hji ▸ hj)
    · exact le_trans h12.ctrMono (h23.newBounds w i (not_visited_none h2) hi)
  · intro w hw1 hw3
    by_cases h2 : visited st2 w
    · exact h12.newReach w hw1 h2
    · exact h23.newReach w h2 hw3
  · intro w hw1 hw3 y he
    by_cases h2 : visited st2 w
    · exact vis23 y (h12.postComp w hw1 h2 y he)
    · exact h23.postComp w h2 hw3 y he
  · intro w hw1 hw3
    by_cases h2 : visited st2 w
    · have hw2 : w ∈ st2.stack := stackMem23 w h2 hw3
      have hne : w ≠ v := by
        rintro rfl
        exact hw1 h12.vVis
      have hl := h12.postLow w hw1 hw2
      have hl3 : lowD st3 w = lowD st2 w := by
        unfold lowD
        rw [h23.lowPresNe w h2 hne]
      rw [hl3]
      exact le_trans h23.lowVLe hl
    · exact h23.postLow w h2 hw3
  · intro w hw1 hw3
    by_cases h2 : visited st2 w
    · have hw2 : w ∈ st2.stack := stackMem23 w h2 hw3
      have hne : w ≠ v := by
        rintro rfl
        exact hw1 h12.vVis
      have hl3 : lowD st3 w = lowD st2 w := by
        unfold lowD
        rw [h23.lowPresNe w h2 hne]
      rw [hl3, idxD_of_idxPres h23.idxPres w h2]
      exact h12.postRoot w hw1 hw2
    · exact h23.postRoot w h2 hw3
  · intro w hw1 hw3 y he hy
    by_cases h2 : visited st2 w
    · have hne : w ≠ v := by
        rintro rfl
        exact hw1 h12.vVis
      have hl3 : lowD st3 w = lowD st2 w := by
        unfold lowD
        rw [h23.lowPresNe w h2 hne]
      by_cases hy2 : visited st2 y
      · have hy2m : y ∈ st2.stack := stackMem23 y hy2 hy
        rw [hl3, idxD_of_idxPres h23.idxPres y hy2]
        exact h12.postBack w hw1 h2 y he hy2m
      · have hy3 : visited st3 y := h23.wf.stackIdx y hy
        obtain ⟨i, hi⟩ := Option.isSome_iff_exists.mp hy3
        have hbound := h23.newBounds y i (not_visited_none hy2) hi
        have hidx3 : idxD st3 y = i := by
          unfold idxD
          rw [show alGet st3.indices y = some i from hi]
          rfl
        have hlow2 : lowD st2 w ≤ idxD st2 w := h12.wf.lowLe w h2
        obtain ⟨j, hj⟩ := Option.isSome_iff_exists.mp h2
        have hjlt : j < st2.index := h12.wf.idxLt w j hj
        have hidx2 : idxD st2 w = j := by
          unfold idxD
          rw [show alGet st2.indices w = some j from hj]
          rfl
        rw [hl3, hidx3]
        omega
    · exact h23.postBack w h2 hw3 y he hy

theorem vnPost_lowUpdate {α : Type} [DecidableEq α] {g : List (α × List α)} {v : α}
    {st : TarjanState α} (wf : TarjanWF g st) (hvis : visited st v)
    (hmem : v ∈ st.stack) (m : Nat) (hm : m ≤ lowD st v)
    (hz : ∃ z ∈ st.stack, idxD st z = m ∧ Reach g v z) :
    VNPost g v st { st with lowlinks := alSet st.lowlinks v m } := by
  set st' : TarjanState α := { st with lowlinks := alSet st.lowlinks v m } with hst'
  have hvtrans : ∀ w, visited st' w ↔ visited st w := fun w => Iff.rfl
  constructor
  · exact wf_lowUpdate wf v hmem m hm hz
  · exact hvis
  · exact hmem
  · intro w i hi; exact hi
  · intro w _ hne
    exact alGet_alSet_ne st.lowlinks v w m hne
  · unfold lowD
    rw [show alGet st'.lowlinks v = some m from alGet_alSet_self st.lowlinks v m]
    exact hm
  · exact le_refl _
  · exact ⟨[], by simp, by simp⟩
  · exact ⟨[], by simp, by simp⟩
  · intro w i hw hi
    have hi' : idxO st w = some i := hi
    rw [hw] at hi'
    exact Option.noConfusion hi'
  · intro w hw hw'
    exact absurd hw' hw
  · intro w hw hw'
    exact absurd hw' hw
  · intro w hw hmem'
    exact absurd (wf.stackIdx w hmem') hw
  · intro w hw hmem'
    exact absurd (wf.stackIdx w hmem') hw
  · intro w hw hw'
    exact absurd hw' hw

theorem vIdx_visited {α : Type} [DecidableEq α] {g : List (α × List α)} {w : α}
    {st stc : TarjanState α} (hpost : SCPost g w st stc) : visited stc w := by
  unfold visited
  rw [show alGet stc.indices w = some st.index from hpost.vIdx]
  rfl

theorem vnPost_child {α : Type} [DecidableEq α] {g : List (α × List α)} {v w : α}
    {st stc : TarjanState α} (wf : TarjanWF g st) (hvis : visited st v)
    (hmem : v ∈ st.stack) (hedge : Edge g v w) (hnw : ¬ visited st w)
    (hpost : SCPost g w st stc) (stc2 : TarjanState α)
    (hstc2 : stc2 = { stc with lowlinks := alSet stc.lowlinks v (min ((alGet stc.lowlinks v).getD 0) ((alGet stc.lowlinks w).getD 0)) }) :
    VNPost g v st stc2 ∧ lowD stc2 v ≤ idxD stc2 w := by
  subst hstc2
  have hwv : w ≠ v := by
    rintro rfl
    exact hnw hvis
  have hvw : v ≠ w := fun h => hwv h.symm
  have hlowPresV : alGet stc.lowlinks v = alGet st.lowlinks v := hpost.lowPres v hvis
  have hlowcv : lowD stc v = lowD st v := by
    unfold lowD
    rw [hlowPresV]
  have hvmemc : v ∈ stc.stack := by
    rcases hpost.stackShape with ⟨heq, _⟩ | ⟨ext, heq, _⟩
    · rw [heq]; exact hmem
    · rw [heq]; exact List.mem_append.mpr (Or.inl hmem)
  have hwvisc : visited stc w := vIdx_visited hpost
  have hidxDw : idxD stc w = st.index := by
    unfold idxD
    rw [show alGet stc.indices w = some st.index from hpost.vIdx]
    rfl
  have hidxvlt : idxD st v < st.index := by
    obtain ⟨i, hi⟩ := Option.isSome_iff_exists.mp hvis
    have := wf.idxLt v i hi
    unfold idxD
    rw [show alGet st.indices v = some i from hi]
    exact this
  have hlowvlt : lowD st v < st.index := lt_of_le_of_lt (wf.lowLe v hvis) hidxvlt
  set m := min ((alGet stc.lowlinks v).getD 0) ((alGet stc.lowlinks w).getD 0) with hm
  have hmlow : m = min (lowD stc v) (lowD stc w) := rfl
  have hmle : m ≤ lowD stc v := min_le_left _ _
  have hmlew : m ≤ lowD stc w := min_le_right _ _
  have hz : ∃ z ∈ stc.stack, idxD stc z = m ∧ Reach g v z := by
    rcases le_total (lowD stc v) (lowD stc w) with h | h
    · obtain ⟨z, hzmem, hzi, hzr⟩ := hpost.wf.lowStack v hvmemc
      exact ⟨z, hzmem, by rw [hzi, hmlow, min_eq_left h], hzr⟩
    · by_cases hwstk : w ∈ stc.stack
      · obtain ⟨z, hzmem, hzi, hzr⟩ := hpost.wf.lowStack w hwstk
        refine ⟨z, hzmem, by rw [hzi, hmlow, min_eq_right h], ?_⟩
        exact Relation.ReflTransGen.head hedge hzr
      · rcases hpost.stackShape with ⟨heq, hflat⟩ | ⟨ext, heq, _⟩
        · have hpop := hpost.popLow hflat
          rw [hpop, hidxDw] at h
          rw [hlowcv] at h
          omega
        · exact absurd (heq ▸ List.mem_append.mpr (Or.inr (by simp))) hwstk
  set stc' : TarjanState α := { stc with lowlinks := alSet stc.lowlinks v m } with hstc'
  have hlowstc'v : lowD stc' v = m := by
    unfold lowD
    rw [show alGet stc'.lowlinks v = some m from alGet_alSet_self stc.lowlinks v m]
    rfl
  have hlowstc'ne : ∀ x, x ≠ v → alGet stc'.lowlinks x = alGet stc.lowlinks x := fun x hx =>
    alGet_alSet_ne stc.lowlinks v x m hx
  refine ⟨?_, ?_⟩
  · constructor
    · exact wf_lowUpdate hpost.wf v hvmemc m hmle hz
    · exact hvis
    · exact hmem
    · intro x i hi
      exact hpost.idxPres x i hi
    · intro x hx hne
      rw [show alGet stc'.lowlinks x = alGet stc.lowlinks x from hlowstc'ne x hne]
      exact hpost.lowPres x hx
    · rw [hlowstc'v, ← hlowcv]
      exact hmle
    · exact le_of_lt hpost.ctrGt
    · rcases hpost.stackShape with ⟨heq, _⟩ | ⟨ext, heq, hext⟩
      · exact ⟨[], by rw [show stc'.stack = stc.stack from rfl, heq]; simp, by simp⟩
      · refine ⟨w :: ext, by rw [show stc'.stack = stc.stack from rfl, heq], ?_⟩
        intro x hx
        rcases List.mem_cons.mp hx with rfl | hx
        · exact hnw
        · exact hext x hx
    · obtain ⟨rest, hre, hrn⟩ := hpost.sccsExt
      exact ⟨rest, hre, hrn⟩
    · intro x i hx hi
      exact hpost.newBounds x i hx hi
    · intro x hx1 hx2
      exact Relation.ReflTransGen.head hedge (hpost.newReach x hx1 hx2)
    · intro x hx1 hx2 y he
      exact hpost.postComp x hx1 hx2 y he
    · intro x hx1 hx2
      have hxv : x ≠ v := by
        rintro rfl
        exact hx1 hvis
      have hlx : lowD stc' x = lowD stc x := by
        unfold lowD
        rw [hlowstc'ne x hxv]
      rw [hlx, hlowstc'v]
      exact le_trans hmlew (hpost.postLow x hx1 hx2)
    · intro x hx1 hx2
      have hxv : x ≠ v := by
        rintro rfl
        exact hx1 hvis
      have hlx : lowD stc' x = lowD stc x := by
        unfold lowD
        rw [hlowstc'ne x hxv]
      rw [hlx]
      exact hpost.postRoot x hx1 hx2
    · intro x hx1 hx2 y he hy
      have hxv : x ≠ v := by
        rintro rfl
        exact hx1 hvis
      have hlx : lowD stc' x = lowD stc x := by
        unfold lowD
        rw [hlowstc'ne x hxv]
      rw [hlx]
      exact hpost.postBack x hx1 hx2 y he hy
  · rw [hlowstc'v, show idxD stc' w = idxD stc w from rfl]
    exact le_trans hmlew (hpost.wf.lowLe w hwvisc)

theorem visitNeighbors_cons_on {α : Type} [DecidableEq α]
    (sc : TarjanState α → α → Option (TarjanState α)) (v w : α) (ws : List α)
    (st : TarjanState α) (h1 : (alGet st.indices w).isSome = true)
    (h2 : w ∈ st.onStack) :
    visitNeighbors sc v (w :: ws) st = visitNeighbors sc v ws
      { st with lowlinks := alSet st.lowlinks v (min ((alGet st.lowlinks v).getD 0) ((alGet st.indices w).getD 0)) } := by
  simp only [visitNeighbors, h1, if_true, if_pos h2]

theorem visitNeighbors_cons_off {α : Type} [DecidableEq α]
    (sc : TarjanState α → α → Option (TarjanState α)) (v w : α) (ws : List α)
    (st : TarjanState α) (h1 : (alGet st.indices w).isSome = true)
    (h2 : w ∉ st.onStack) :
    visitNeighbors sc v (w :: ws) st = visitNeighbors sc v ws st := by
  simp only [visitNeighbors, h1, if_true, if_neg h2]

theorem visitNeighbors_cons_rec {α : Type} [DecidableEq α]
    (sc : TarjanState α → α → Option (TarjanState α)) (v w : α) (ws : List α)
    (st stc : TarjanState α) (h1 : (alGet st.indices w).isSome = false)
    (h2 : sc st w = some stc) :
    visitNeighbors sc v (w :: ws) st = visitNeighbors sc v ws
      { stc with lowlinks := alSet stc.lowlinks v (min ((alGet stc.lowlinks v).getD 0) ((alGet stc.lowlinks w).getD 0)) } := by
  simp only [visitNeighbors, h1, Bool.false_eq_true, if_false, h2]

theorem visitNeighbors_spec {α : Type} [DecidableEq α] (g : List (α × List α))
    (sc : TarjanState α → α → Option (TarjanState α)) (bound : Nat)
    (hsc : ∀ (st : TarjanState α) (w : α), TarjanWF g st → ¬ visited st w →
      w ∈ nodeList g → unvisitedCount g st < bound →
      ∃ st', sc st w = some st' ∧ SCPost g w st st')
    (v : α) :
    ∀ (ws : List α) (st : TarjanState α), TarjanWF g st → visited st v →
      v ∈ st.stack → (∀ w ∈ ws, Edge g v w) → unvisitedCount g st < bound →
      ∃ st', visitNeighbors sc v ws st = some st' ∧ VNPost g v st st' ∧
        ∀ w ∈ ws, visited st' w ∧ (w ∈ st'.stack → lowD st' v ≤ idxD st' w) := by
  intro ws
  induction ws with
  | nil =>
    intro st wf hvis hmem _ _
    exact ⟨st, rfl, vnPost_refl wf hvis hmem, by simp⟩
  | cons w ws ih =>
    intro st wf hvis hmem hedges hcnt
    have hedge : Edge g v w := hedges w (List.mem_cons_self _ _)
    by_cases hvw : (alGet st.indices w).isSome = true
    · by_cases hos : w ∈ st.onStack
      · set m := min ((alGet st.lowlinks v).getD 0) ((alGet st.indices w).getD 0) with hmdef
        set stm : TarjanState α := { st with lowlinks := alSet st.lowlinks v m } with hstm
        have hmle : m ≤ lowD st v := min_le_left _ _
        have hz : ∃ z ∈ st.stack, idxD st z = m ∧ Reach g v z := by
          rcases le_total ((alGet st.lowlinks v).getD 0) ((alGet st.indices w).getD 0)
            with h | h
          · obtain ⟨z, hzmem, hzi, hzr⟩ := wf.lowStack v hmem
            exact ⟨z, hzmem, by rw [hzi]; exact (min_eq_left h).symm, hzr⟩
          · refine ⟨w, (wf.onStackIff w).mp hos, ?_,
              Relation.ReflTransGen.single hedge⟩
            rw [show idxD st w = (alGet st.indices w).getD 0 from rfl]
            exact (min_eq_right h).symm
        have hpost1 : VNPost g v st stm := vnPost_lowUpdate wf hvis hmem m hmle hz
        have hcnt' : unvisitedCount g stm < bound := hcnt
        obtain ⟨st', heq, hpost2, hproc⟩ := ih stm hpost1.wf hvis hmem
          (fun x hx => hedges x (List.mem_cons_of_mem _ hx)) hcnt'
        refine ⟨st', ?_, vnPost_trans hpost1 hpost2, ?_⟩
        · rw [visitNeighbors_cons_on sc v w ws st hvw hos]
          exact heq
        · intro x hx
          rcases List.mem_cons.mp hx with rfl | hx
          · refine ⟨visited_of_idxPres hpost2.idxPres x hvw, ?_⟩
            intro hxs
            have hlowm : lowD stm v = m := by
              unfold lowD
              rw [show alGet stm.lowlinks v = some m from
                alGet_alSet_self st.lowlinks v m]
              rfl
            have h1 : lowD st' v ≤ lowD stm v := hpost2.lowVLe
            have h2 : idxD st' x = idxD stm x := idxD_of_idxPres hpost2.idxPres x hvw
            rw [h2, show idxD stm x = idxD st x from rfl]
            refine le_trans h1 ?_
            rw [hlowm]
            exact min_le_right _ _
          · exact hproc x hx
      · have hwstack : w ∉ st.stack := fun h => hos ((wf.onStackIff w).mpr h)
        obtain ⟨st', heq, hpost2, hproc⟩ := ih st wf hvis hmem
          (fun x hx => hedges x (List.mem_cons_of_mem _ hx)) hcnt
        refine ⟨st', ?_, hpost2, ?_⟩
        · rw [visitNeighbors_cons_off sc v w ws st hvw hos]
          exact heq
        · intro x hx
          rcases List.mem_cons.mp hx with rfl | hx
          · refine ⟨visited_of_idxPres hpost2.idxPres x hvw, ?_⟩
            intro hxs
            obtain ⟨d, hd, hdn⟩ := hpost2.stackExt
            rw [hd] at hxs
            rcases List.mem_append.mp hxs with h | h
            · exact absurd h hwstack
            · exact absurd hvw (hdn x h)
          · exact hproc x hx
    · have hnvw : ¬ visited st w := by simpa [visited] using hvw
      have hwnode : w ∈ nodeList g := edge_mem_nodeList g v w hedge
      obtain ⟨stc, hsceq, hscpost⟩ := hsc st w wf hnvw hwnode hcnt
      set stc2 : TarjanState α := { stc with lowlinks := alSet stc.lowlinks v (min ((alGet stc.lowlinks v).getD 0) ((alGet stc.lowlinks w).getD 0)) } with hstc2
      obtain ⟨hpost1, hwproc⟩ := vnPost_child wf hvis hmem hedge hnvw hscpost stc2 hstc2
      have hvism : visited stc2 v := visited_of_idxPres hpost1.idxPres v hvis
      have hmemm : v ∈ stc2.stack := by
        obtain ⟨d, hd, _⟩ := hpost1.stackExt
        rw [hd]
        exact List.mem_append.mpr (Or.inl hmem)
      have hcnt' : unvisitedCount g stc2 < bound := by
        have h1 : unvisitedCount g stc2 = unvisitedCount g stc := rfl
        have h2 : unvisitedCount g stc ≤ unvisitedCount g st :=
          unvisitedCount_mono g st stc hscpost.idxPres
        omega
      obtain ⟨st', heq, hpost2, hproc⟩ := ih stc2 hpost1.wf hvism hmemm
        (fun x hx => hedges x (List.mem_cons_of_mem _ hx)) hcnt'
      refine ⟨st', ?_, vnPost_trans hpost1 hpost2, ?_⟩
      · rw [visitNeighbors_cons_rec sc v w ws st stc (by simpa using hvw) hsceq]
        exact heq
      · intro x hx
        rcases List.mem_cons.mp hx with rfl | hx
        · have hvisx : visited stc2 x := by
            rw [hstc2]
            show visited stc x
            exact vIdx_visited hscpost
          refine ⟨visited_of_idxPres hpost2.idxPres x hvisx, ?_⟩
          intro hxs
          have h1 : lowD st' v ≤ lowD stc2 v := hpost2.lowVLe
          have h2 : idxD st' x = idxD stc2 x := idxD_of_idxPres hpost2.idxPres x hvisx
          rw [h2]
          exact le_trans h1 hwproc
        · exact hproc x hx

theorem reach_in_flat {α : Type} [DecidableEq α] {g : List (α × List α)}
    {st : TarjanState α} (wf : TarjanWF g st) {x y : α} (hx : x ∈ sccsFlat st)
    (hr : Reach g x y) : y ∈ sccsFlat st := by
  induction hr with
  | refl => exact hx
  | tail _ he ih =>
    obtain ⟨c, hc, hmc⟩ := List.mem_flatten.mp ih
    exact wf.closure c hc _ hmc _ he

theorem strongConnect_succ_eq {α : Type} [DecidableEq α] (g : List (α × List α))
    (fuel : Nat) (st : TarjanState α) (v : α) :
    strongConnect g (fuel + 1) st v =
      match visitNeighbors (fun st w => strongConnect g fuel st w) v (adj g v)
        ⟨alSet st.indices v st.index, alSet st.lowlinks v st.index,
          setAdd st.onStack v, st.stack ++ [v], st.sccs, st.index + 1⟩ with
      | none => none
      | some st2 =>
        if alGet st2.lowlinks v = alGet st2.indices v then
          some { st2 with
            stack := (popWhileNe v st2.stack.reverse).2.reverse
            onStack := (popWhileNe v st2.stack.reverse).1.foldl setDel st2.onStack
            sccs := st2.sccs ++ [(popWhileNe v st2.stack.reverse).1] }
        else some st2 := by
  rfl

theorem pop_descent {α : Type} [DecidableEq α] (g : List (α × List α))
    (st2 : TarjanState α) (wf2 : TarjanWF g st2) (v : α) (ext base : List α)
    (hstack2 : st2.stack = base ++ v :: ext)
    (hOldIdx : ∀ x ∈ base, idxD st2 x < idxD st2 v)
    (hExtLow : ∀ x ∈ ext, idxD st2 v ≤ lowD st2 x)
    (hExtRoot : ∀ x ∈ ext, lowD st2 x < idxD st2 x) :
    ∀ x, x = v ∨ x ∈ ext → Reach g x v := by
  have hsplit : ∀ x ∈ st2.stack, idxD st2 v ≤ idxD st2 x → x = v ∨ x ∈ ext := by
    intro x hx hge
    rw [hstack2] at hx
    rcases List.mem_append.mp hx with h | h
    · exact absurd hge (by have := hOldIdx x h; omega)
    · exact List.mem_cons.mp h
  have hmemst : ∀ x, x = v ∨ x ∈ ext → x ∈ st2.stack := by
    intro x hx
    rw [hstack2]
    rcases hx with rfl | hx
    · exact List.mem_append.mpr (Or.inr (List.mem_cons_self _ _))
    · exact List.mem_append.mpr (Or.inr (List.mem_cons_of_mem _ hx))
  suffices h : ∀ n x, x = v ∨ x ∈ ext → idxD st2 x = n → Reach g x v by
    intro x hx
    exact h (idxD st2 x) x hx rfl
  intro n
  induction n using Nat.strong_induction_on with
  | _ n ihn =>
    intro x hx hxn
    rcases hx with rfl | hxe
    · exact Relation.ReflTransGen.refl
    · obtain ⟨z, hzmem, hzi, hzr⟩ := wf2.lowStack x (hmemst x (Or.inr hxe))
      have h1 : lowD st2 x < idxD st2 x := hExtRoot x hxe
      have h2 : idxD st2 v ≤ lowD st2 x := hExtLow x hxe
      have hzP : z = v ∨ z ∈ ext := hsplit z hzmem (by omega)
      have hzlt : idxD st2 z < n := by omega
      exact reach_trans g hzr (ihn (idxD st2 z) hzlt z hzP rfl)

theorem pop_in_component {α : Type} [DecidableEq α] (g : List (α × List α))
    (st2 : TarjanState α) (wf2 : TarjanWF g st2) (v : α) (ext base : List α)
    (hstack2 : st2.stack = base ++ v :: ext)
    (hOldIdx : ∀ x ∈ base, idxD st2 x < idxD st2 v)
    (hComp : ∀ x, x = v ∨ x ∈ ext → ∀ y, Edge g x y → visited st2 y)
    (hBack : ∀ x, x = v ∨ x ∈ ext → ∀ y, Edge g x y → y ∈ st2.stack →
      idxD st2 v ≤ idxD st2 y) :
    ∀ x y, Reach g x y → (x = v ∨ x ∈ ext) → Reach g y v → (y = v ∨ y ∈ ext) := by
  have hsplit : ∀ x ∈ st2.stack, idxD st2 v ≤ idxD st2 x → x = v ∨ x ∈ ext := by
    intro x hx hge
    rw [hstack2] at hx
    rcases List.mem_append.mp hx with h | h
    · exact absurd hge (by have := hOldIdx x h; omega)
    · exact List.mem_cons.mp h
  have hvmem : v ∈ st2.stack := by
    rw [hstack2]
    exact List.mem_append.mpr (Or.inr (List.mem_cons_self _ _))
  intro x y hxy
  induction hxy using Relation.ReflTransGen.head_induction_on with
  | refl =>
    intro hy _
    exact hy
  | head he hrest ihy =>
    rename_i a c
    intro ha hyv
    have hcvis : visited st2 c := hComp a ha c he
    rcases (wf2.partStack c).mp hcvis with hcs | hcf
    · exact ihy (hsplit c hcs (hBack a ha c he hcs)) hyv
    · have hvflat : v ∈ sccsFlat st2 :=
        reach_in_flat wf2 hcf (reach_trans g hrest hyv)
      exact absurd hvflat (wf2.stackFlatDisj v hvmem)

theorem wf_pop {α : Type} [DecidableEq α] {g : List (α × List α)}
    {st st2 : TarjanState α} (wf : TarjanWF g st) (wf2 : TarjanWF g st2)
    (v : α) (ext : List α) (hnv : ¬ visited st v)
    (hstack2 : st2.stack = st.stack ++ v :: ext)
    (hextnew0 : ∀ x ∈ ext, ¬ visited st x)
    (hOldIdx : ∀ x ∈ st.stack, idxD st2 x < idxD st2 v)
    (hExtLow : ∀ x ∈ ext, idxD st2 v ≤ lowD st2 x)
    (hExtRoot : ∀ x ∈ ext, lowD st2 x < idxD st2 x)
    (hExtComp : ∀ x, x = v ∨ x ∈ ext → ∀ y, Edge g x y → visited st2 y)
    (hExtBack : ∀ x, x = v ∨ x ∈ ext → ∀ y, Edge g x y → y ∈ st2.stack →
      idxD st2 v ≤ idxD st2 y)
    (hReachV : ∀ x, x = v ∨ x ∈ ext → Reach g v x) :
    TarjanWF g { st2 with
      stack := st.stack
      onStack := (ext.reverse ++ [v]).foldl setDel st2.onStack
      sccs := st2.sccs ++ [ext.reverse ++ [v]] } := by
  have hPmem : ∀ x, x ∈ ext.reverse ++ [v] ↔ x = v ∨ x ∈ ext := by
    intro x
    simp [List.mem_append, List.mem_reverse, or_comm]
  have hvst2 : v ∈ st2.stack := by
    rw [hstack2]
    exact List.mem_append.mpr (Or.inr (List.mem_cons_self _ _))
  have hvisv : visited st2 v := wf2.stackIdx v hvst2
  have hextst2 : ∀ x ∈ ext, x ∈ st2.stack := by
    intro x hx
    rw [hstack2]
    exact List.mem_append.mpr (Or.inr (List.mem_cons_of_mem _ hx))
  have hvis2ext : ∀ x ∈ ext, visited st2 x := fun x hx => wf2.stackIdx x (hextst2 x hx)
  have hvisP : ∀ x, x = v ∨ x ∈ ext → visited st2 x := by
    intro x hx
    rcases hx with rfl | hx
    · exact hvisv
    · exact hvis2ext x hx
  have hmemP2 : ∀ x, x = v ∨ x ∈ ext → x ∈ st2.stack := by
    intro x hx
    rcases hx with rfl | hx
    · exact hvst2
    · exact hextst2 x hx
  have hstsub2 : ∀ x ∈ st.stack, x ∈ st2.stack := by
    intro x hx
    rw [hstack2]
    exact List.mem_append.mpr (Or.inl hx)
  have hstnotP : ∀ x ∈ st.stack, ¬ (x = v ∨ x ∈ ext) := by
    intro x hx h
    rcases h with rfl | h
    · exact hnv (wf.stackIdx x hx)
    · exact hextnew0 x h (wf.stackIdx x hx)
  have hExtIdx : ∀ x ∈ ext, idxD st2 v < idxD st2 x := by
    intro x hx
    have h1 := hExtLow x hx
    have h2 := hExtRoot x hx
    omega
  have hdescent := pop_descent g st2 wf2 v ext st.stack hstack2 hOldIdx hExtLow hExtRoot
  have hmaximal := pop_in_component g st2 wf2 v ext st.stack hstack2 hOldIdx hExtComp
    hExtBack
  have hPnotflat : ∀ x, x = v ∨ x ∈ ext → x ∉ sccsFlat st2 := fun x hx =>
    wf2.stackFlatDisj x (hmemP2 x hx)
  have hflatF : sccsFlat { st2 with
      stack := st.stack
      onStack := (ext.reverse ++ [v]).foldl setDel st2.onStack
      sccs := st2.sccs ++ [ext.reverse ++ [v]] } =
      sccsFlat st2 ++ (ext.reverse ++ [v]) := by
    show (st2.sccs ++ [ext.reverse ++ [v]]).flatten = st2.sccs.flatten ++ _
    rw [List.flatten_append]
    simp
  have hnd2 : (st.stack ++ v :: ext).Nodup := by
    rw [← hstack2]
    exact stack_nodup wf2
  have hvextnd : (v :: ext).Nodup := (List.nodup_append.mp hnd2).2.1
  have hvnotext : v ∉ ext := (List.nodup_cons.mp hvextnd).1
  have hextnd : ext.Nodup := (List.nodup_cons.mp hvextnd).2
  have hPnd : (ext.reverse ++ [v]).Nodup := by
    refine List.nodup_append.mpr ⟨List.nodup_reverse.mpr hextnd, List.nodup_singleton v, ?_⟩
    intro a ha hav
    rw [List.mem_singleton] at hav
    subst hav
    exact hvnotext (List.mem_reverse.mp ha)
  constructor
  case idxNode =>
    intro x hx
    exact wf2.idxNode x hx
  case stackIdx =>
    intro x hx
    exact wf2.stackIdx x (hstsub2 x hx)
  case stackSorted =>
    show List.Pairwise (fun a b => idxD st2 a < idxD st2 b) st.stack
    have h := wf2.stackSorted
    rw [hstack2] at h
    exact (List.pairwise_append.mp h).1
  case onStackIff =>
    intro x
    show x ∈ (ext.reverse ++ [v]).foldl setDel st2.onStack ↔ x ∈ st.stack
    rw [mem_foldl_setDel]
    constructor
    · rintro ⟨hx, hnp⟩
      have hxs : x ∈ st2.stack := (wf2.onStackIff x).mp hx
      rw [hstack2] at hxs
      rcases List.mem_append.mp hxs with h | h
      · exact h
      · exact absurd ((hPmem x).mpr (List.mem_cons.mp h)) hnp
    · intro hx
      refine ⟨(wf2.onStackIff x).mpr (hstsub2 x hx), fun hp => ?_⟩
      exact hstnotP x hx ((hPmem x).mp hp)
  case idxLt =>
    intro x i hx
    exact wf2.idxLt x i hx
  case idxInj =>
    intro x y i hx hy
    exact wf2.idxInj x y i hx hy
  case lowDef =>
    intro x
    exact wf2.lowDef x
  case lowLe =>
    intro x hx
    exact wf2.lowLe x hx
  case partStack =>
    intro x
    show visited st2 x ↔ x ∈ st.stack ∨ x ∈ sccsFlat _
    rw [hflatF]
    constructor
    · intro hx
      rcases (wf2.partStack x).mp hx with hs | hf
      · rw [hstack2] at hs
        rcases List.mem_append.mp hs with h | h
        · exact Or.inl h
        · exact Or.inr (List.mem_append.mpr (Or.inr ((hPmem x).mpr
            (List.mem_cons.mp h))))
      · exact Or.inr (List.mem_append.mpr (Or.inl hf))
    · intro hx
      rcases hx with hs | hf
      · exact wf2.stackIdx x (hstsub2 x hs)
      · rcases List.mem_append.mp hf with h | h
        · exact (wf2.partStack x).mpr (Or.inr h)
        · exact hvisP x ((hPmem x).mp h)
  case stackFlatDisj =>
    intro x hx hf
    rw [show sccsFlat _ = sccsFlat st2 ++ (ext.reverse ++ [v]) from hflatF] at hf
    rcases List.mem_append.mp hf with h | h
    · exact wf2.stackFlatDisj x (hstsub2 x hx) h
    · exact hstnotP x hx ((hPmem x).mp h)
  case flatNodup =>
    rw [show sccsFlat _ = sccsFlat st2 ++ (ext.reverse ++ [v]) from hflatF]
    refine List.nodup_append.mpr ⟨wf2.flatNodup, hPnd, ?_⟩
    intro a ha hap
    exact hPnotflat a ((hPmem a).mp hap) ha
  case closure =>
    intro c hc u hu y hy
    rw [show sccsFlat _ = sccsFlat st2 ++ (ext.reverse ++ [v]) from hflatF]
    rcases List.mem_append.mp hc with h | h
    · exact List.mem_append.mpr (Or.inl (wf2.closure c h u hu y hy))
    · rw [List.mem_singleton] at h
      subst h
      have huP := (hPmem u).mp hu
      have hyvis : visited st2 y := hExtComp u huP y hy
      rcases (wf2.partStack y).mp hyvis with hs | hf
      · rw [hstack2] at hs
        rcases List.mem_append.mp hs with h2 | h2
        · have h3 := hExtBack u huP y hy (hstsub2 y h2)
          have h4 := hOldIdx y h2
          omega
        · exact List.mem_append.mpr (Or.inr ((hPmem y).mpr (List.mem_cons.mp h2)))
      · exact List.mem_append.mpr (Or.inl hf)
  case sccConn =>
    intro c hc u hu y hy
    rcases List.mem_append.mp hc with h | h
    · exact wf2.sccConn c h u hu y hy
    · rw [List.mem_singleton] at h
      subst h
      exact reach_trans g (hdescent u ((hPmem u).mp hu)) (hReachV y ((hPmem y).mp hy))
  case sccMax =>
    intro c hc u hu y hruy hryu
    rcases List.mem_append.mp hc with h | h
    · exact wf2.sccMax c h u hu y hruy hryu
    · rw [List.mem_singleton] at h
      subst h
      have huP := (hPmem u).mp hu
      have hvy : Reach g v y := reach_trans g (hReachV u huP) hruy
      have hyv : Reach g y v := reach_trans g hryu (hdescent u huP)
      exact (hPmem y).mpr (hmaximal v y hvy (Or.inl rfl) hyv)
  case sccNE =>
    intro c hc
    rcases List.mem_append.mp hc with h | h
    · exact wf2.sccNE c h
    · rw [List.mem_singleton] at h
      subst h
      simp
  case lowStack =>
    intro u hu
    have hu2 : u ∈ st2.stack := hstsub2 u hu
    obtain ⟨z, hz, hzi, hzr⟩ := wf2.lowStack u hu2
    have hlowle : lowD st2 u ≤ idxD st2 u := wf2.lowLe u (wf2.stackIdx u hu2)
    have huidx : idxD st2 u < idxD st2 v := hOldIdx u hu
    refine ⟨z, ?_, hzi, hzr⟩
    rw [hstack2] at hz
    rcases List.mem_append.mp hz with h | h
    · exact h
    · rcases List.mem_cons.mp h with rfl | h2
      · omega
      · have := hExtIdx z h2
        omega

theorem strongConnect_spec {α : Type} [DecidableEq α] (g : List (α × List α)) :
    ∀ (fuel : Nat) (st : TarjanState α) (v : α), TarjanWF g st → ¬ visited st v →
      v ∈ nodeList g → unvisitedCount g st < fuel →
      ∃ st', strongConnect g fuel st v = some st' ∧ SCPost g v st st' := by
  intro fuel
  induction fuel with
  | zero =>
    intro st v _ _ _ hcnt
    omega
  | succ fuel ih =>
    intro st v wf hnv hv hcnt
    set st1 : TarjanState α := ⟨alSet st.indices v st.index, alSet st.lowlinks v st.index,
      setAdd st.onStack v, st.stack ++ [v], st.sccs, st.index + 1⟩ with hst1
    have wf1 : TarjanWF g st1 := wf_push wf v hnv hv
    have hidx1v : idxO st1 v = some st.index := alGet_alSet_self st.indices v st.index
    have hvis1 : visited st1 v := by
      unfold visited
      rw [show alGet st1.indices v = some st.index from hidx1v]
      rfl
    have hstack1 : st1.stack = st.stack ++ [v] := by rw [hst1]
    have hsccs1 : st1.sccs = st.sccs := by rw [hst1]
    have hindex1 : st1.index = st.index + 1 := by rw [hst1]
    have hmem1 : v ∈ st1.stack := by
      rw [hstack1]
      exact List.mem_append.mpr (Or.inr (List.mem_cons_self _ _))
    have hpres01 : ∀ w i, idxO st w = some i → idxO st1 w = some i := by
      intro w i hi
      have hwv : w ≠ v := by
        rintro rfl
        exact hnv (Option.isSome_iff_exists.mpr ⟨i, hi⟩)
      rw [show idxO st1 w = idxO st w from alGet_alSet_ne st.indices v w st.index hwv]
      exact hi
    have hnvis1 : ∀ w, w ≠ v → ¬ visited st w → ¬ visited st1 w := by
      intro w hwv hw h
      rcases (visited_push_iff st v w st.index).mp h with h2 | h2
      · exact hwv h2
      · exact hw h2
    have hvismono1 : ∀ w, visited st w → visited st1 w := visited_of_idxPres hpres01
    have hcnt1 : unvisitedCount g st1 < fuel := by
      have h1 := unvisitedCount_lt g st st1 hpres01 v hv hnv hvis1
      omega
    obtain ⟨st2, hvneq, hvn, hproc⟩ := visitNeighbors_spec g
      (fun s w => strongConnect g fuel s w) fuel
      (fun s w a b c d => ih s w a b c d) v (adj g v) st1 wf1 hvis1 hmem1
      (fun w hw => hw) hcnt1
    have wf2 : TarjanWF g st2 := hvn.wf
    have hidx2v : idxO st2 v = some st.index := hvn.idxPres v st.index hidx1v
    have hidxD2v : idxD st2 v = st.index := by
      unfold idxD
      rw [show alGet st2.indices v = some st.index from hidx2v]
      rfl
    have hvis2v : visited st2 v := visited_of_idxPres hvn.idxPres v hvis1
    have hpres02 : ∀ w i, idxO st w = some i → idxO st2 w = some i :=
      fun w i hi => hvn.idxPres w i (hpres01 w i hi)
    obtain ⟨ext, hstack2, hextnew1⟩ : ∃ ext, st2.stack = st.stack ++ v :: ext ∧
        ∀ x ∈ ext, ¬ visited st1 x := by
      obtain ⟨d, hd, hdn⟩ := hvn.stackExt
      refine ⟨d, ?_, hdn⟩
      rw [hd, hstack1, List.append_assoc, List.singleton_append]
    have hextnew0 : ∀ x ∈ ext, ¬ visited st x :=
      fun x hx h => hextnew1 x hx (hvismono1 x h)
    have hextst2 : ∀ x ∈ ext, x ∈ st2.stack := by
      intro x hx
      rw [hstack2]
      exact List.mem_append.mpr (Or.inr (List.mem_cons_of_mem _ hx))
    have hvis2ext : ∀ x ∈ ext, visited st2 x := fun x hx => wf2.stackIdx x (hextst2 x hx)
    have hvst2 : v ∈ st2.stack := by
      rw [hstack2]
      exact List.mem_append.mpr (Or.inr (List.mem_cons_self _ _))
    have hOldIdx : ∀ x ∈ st.stack, idxD st2 x < st.index := by
      intro x hx
      obtain ⟨i, hi⟩ := Option.isSome_iff_exists.mp (wf.stackIdx x hx)
      have hlt := wf.idxLt x i hi
      unfold idxD
      rw [show alGet st2.indices x = some i from hpres02 x i hi]
      exact hlt
    have hlowPres02 : ∀ w, visited st w → alGet st2.lowlinks w = alGet st.lowlinks w := by
      intro w hw
      have hwv : w ≠ v := fun h => hnv (h ▸ hw)
      have h1 := hvn.lowPresNe w (hvismono1 w hw) hwv
      rw [h1]
      exact alGet_alSet_ne st.lowlinks v w st.index hwv
    have hctr2 : st.index + 1 ≤ st2.index := by
      have h := hvn.ctrMono
      rw [hindex1] at h
      exact h
    have hnewB : ∀ w i, idxO st w = none → idxO st2 w = some i → st.index ≤ i := by
      intro w i hw0 hw2
      by_cases hwv : w = v
      · subst hwv
        have h := hidx2v.symm.trans hw2
        have h2 : st.index = i := Option.some.inj h
        omega
      · have h1 : idxO st1 w = none := by
          rw [show idxO st1 w = idxO st w from alGet_alSet_ne st.indices v w st.index hwv]
          exact hw0
        have h2 := hvn.newBounds w i h1 hw2
        rw [hindex1] at h2
        omega
    have hnewReach : ∀ w, ¬ visited st w → visited st2 w → Reach g v w := by
      intro w hw hw2
      by_cases hwv : w = v
      · subst hwv
        exact Relation.ReflTransGen.refl
      · exact hvn.newReach w (hnvis1 w hwv hw) hw2
    have hpostComp2 : ∀ w, ¬ visited st w → visited st2 w → ∀ y, Edge g w y →
        visited st2 y := by
      intro w hw hw2 y hy
      by_cases hwv : w = v
      · subst hwv
        exact (hproc y hy).1
      · exact hvn.postComp w (hnvis1 w hwv hw) hw2 y hy
    have hpostBack2 : ∀ w, ¬ visited st w → visited st2 w → ∀ y, Edge g w y →
        y ∈ st2.stack → lowD st2 w ≤ idxD st2 y := by
      intro w hw hw2 y hy hys
      by_cases hwv : w = v
      · subst hwv
        exact (hproc y hy).2 hys
      · exact hvn.postBack w (hnvis1 w hwv hw) hw2 y hy hys
    have hsccsExt2 : ∃ rest, st2.sccs = st.sccs ++ rest ∧
        ∀ c ∈ rest, ∀ x ∈ c, ¬ visited st x := by
      obtain ⟨rest, hr, hrn⟩ := hvn.sccsExt
      refine ⟨rest, ?_, ?_⟩
      · rw [hr, hsccs1]
      · intro c hc x hx h
        exact hrn c hc x hx (hvismono1 x h)
    by_cases hdec : alGet st2.lowlinks v = alGet st2.indices v
    · have hdecD : lowD st2 v = idxD st2 v := by
        unfold lowD idxD
        rw [hdec]
      have hExtLow : ∀ x ∈ ext, idxD st2 v ≤ lowD st2 x := by
        intro x hx
        have h := hvn.postLow x (hextnew1 x hx) (hextst2 x hx)
        omega
      have hExtRoot : ∀ x ∈ ext, lowD st2 x < idxD st2 x :=
        fun x hx => hvn.postRoot x (hextnew1 x hx) (hextst2 x hx)
      have hExtComp : ∀ x, x = v ∨ x ∈ ext → ∀ y, Edge g x y → visited st2 y := by
        intro x hx y hy
        rcases hx with rfl | hx
        · exact (hproc y hy).1
        · exact hvn.postComp x (hextnew1 x hx) (hvis2ext x hx) y hy
      have hExtBack : ∀ x, x = v ∨ x ∈ ext → ∀ y, Edge g x y → y ∈ st2.stack →
          idxD st2 v ≤ idxD st2 y := by
        intro x hx y hy hys
        rcases hx with rfl | hx
        · have h := (hproc y hy).2 hys
          omega
        · have h1 := hvn.postBack x (hextnew1 x hx) (hvis2ext x hx) y hy hys
          have h2 := hExtLow x hx
          omega
      have hReachV : ∀ x, x = v ∨ x ∈ ext → Reach g v x := by
        intro x hx
        rcases hx with rfl | hx
        · exact Relation.ReflTransGen.refl
        · exact hvn.newReach x (hextnew1 x hx) (hvis2ext x hx)
      have hOldIdxv : ∀ x ∈ st.stack, idxD st2 x < idxD st2 v := by
        intro x hx
        have := hOldIdx x hx
        omega
      have hwfF := wf_pop wf wf2 v ext hnv hstack2 hextnew0 hOldIdxv hExtLow hExtRoot
        hExtComp hExtBack hReachV
      have hfin : strongConnect g (fuel + 1) st v = some { st2 with
          stack := st.stack
          onStack := (ext.reverse ++ [v]).foldl setDel st2.onStack
          sccs := st2.sccs ++ [ext.reverse ++ [v]] } := by
        rw [strongConnect_succ_eq g fuel st v, ← hst1, hvneq]
        show (if alGet st2.lowlinks v = alGet st2.indices v then
            some { st2 with
              stack := (popWhileNe v st2.stack.reverse).2.reverse
              onStack := (popWhileNe v st2.stack.reverse).1.foldl setDel st2.onStack
              sccs := st2.sccs ++ [(popWhileNe v st2.stack.reverse).1] }
          else some st2) = some { st2 with
            stack := st.stack
            onStack := (ext.reverse ++ [v]).foldl setDel st2.onStack
            sccs := st2.sccs ++ [ext.reverse ++ [v]] }
        have hrev : st2.stack.reverse = ext.reverse ++ v :: st.stack.reverse := by
          rw [hstack2, List.reverse_append, List.reverse_cons, List.append_assoc,
            List.singleton_append]
        have hvnotrev : v ∉ ext.reverse := by
          rw [List.mem_reverse]
          intro h
          exact hextnew1 v h hvis1
        have hpop : popWhileNe v st2.stack.reverse =
            (ext.reverse ++ [v], st.stack.reverse) := by
          rw [hrev]
          exact popWhileNe_spec v st.stack.reverse ext.reverse hvnotrev
        rw [if_pos hdec, hpop]
        dsimp only
        rw [List.reverse_reverse]
      refine ⟨_, hfin, hwfF, hpres02, hlowPres02, hidx2v, ?_, hnewB, ?_, ?_,
        hnewReach, hpostComp2, ?_, ?_, ?_, fun _ => hdecD⟩
      · show st.index < st2.index
        omega
      · left
        refine ⟨rfl, ?_⟩
        show v ∈ (st2.sccs ++ [ext.reverse ++ [v]]).flatten
        exact List.mem_flatten.mpr ⟨ext.reverse ++ [v],
          List.mem_append.mpr (Or.inr (List.mem_singleton.mpr rfl)), by simp⟩
      · obtain ⟨rest, hr, hrn⟩ := hsccsExt2
        refine ⟨rest ++ [ext.reverse ++ [v]], ?_, ?_⟩
        · show st2.sccs ++ [ext.reverse ++ [v]] = st.sccs ++ (rest ++ [ext.reverse ++ [v]])
          rw [hr, List.append_assoc]
        · intro c hc x hx
          rcases List.mem_append.mp hc with h | h
          · exact hrn c h x hx
          · rw [List.mem_singleton] at h
            subst h
            have hxm : x = v ∨ x ∈ ext := by
              rcases List.mem_append.mp hx with h2 | h2
              · exact Or.inr (List.mem_reverse.mp h2)
              · rw [List.mem_singleton] at h2
                exact Or.inl h2
            rcases hxm with rfl | h2
            · exact hnv
            · exact hextnew0 x h2
      · intro w hw hws
        exact absurd (wf.stackIdx w hws) hw
      · intro w hw hws
        exact absurd (wf.stackIdx w hws) hw
      · intro w hw hw2 y hy hys
        refine hpostBack2 w hw hw2 y hy ?_
        rw [hstack2]
        exact List.mem_append.mpr (Or.inl hys)
    · have hfin : strongConnect g (fuel + 1) st v = some st2 := by
        rw [strongConnect_succ_eq g fuel st v, ← hst1, hvneq]
        show (if alGet st2.lowlinks v = alGet st2.indices v then
            some { st2 with
              stack := (popWhileNe v st2.stack.reverse).2.reverse
              onStack := (popWhileNe v st2.stack.reverse).1.foldl setDel st2.onStack
              sccs := st2.sccs ++ [(popWhileNe v st2.stack.reverse).1] }
          else some st2) = some st2
        rw [if_neg hdec]
      refine ⟨st2, hfin, ?_⟩
      have hlowlt : lowD st2 v < idxD st2 v := by
        have hle : lowD st2 v ≤ idxD st2 v := wf2.lowLe v hvis2v
        have hne : lowD st2 v ≠ idxD st2 v := by
          intro heq
          apply hdec
          obtain ⟨l, hl2⟩ := Option.isSome_iff_exists.mp ((wf2.lowDef v).mpr hvis2v)
          unfold lowD idxD at heq
          rw [show alGet st2.lowlinks v = some l from hl2,
            show alGet st2.indices v = some st.index from hidx2v] at heq
          simp only [Option.getD_some] at heq
          rw [show alGet st2.lowlinks v = some l from hl2,
            show alGet st2.indices v = some st.index from hidx2v, heq]
        omega
      refine ⟨wf2, hpres02, hlowPres02, hidx2v, by omega, hnewB,
        Or.inr ⟨ext, hstack2, hextnew0⟩, hsccsExt2, hnewReach, hpostComp2, ?_, ?_,
        hpostBack2, fun hvf => absurd hvf (wf2.stackFlatDisj v hvst2)⟩
      · intro w hw hws
        by_cases hwv : w = v
        · subst hwv
          exact le_refl _
        · exact hvn.postLow w (hnvis1 w hwv hw) hws
      · intro w hw hws
        by_cases hwv : w = v
        · subst hwv
          exact hlowlt
        · exact hvn.postRoot w (hnvis1 w hwv hw) hws

theorem findSCCs_spec {α : Type} [DecidableEq α] (g : List (α × List α)) :
    ∃ sccs, findSCCs g = some sccs ∧
      sccs.flatten.Nodup ∧
      (∀ w, w ∈ sccs.flatten ↔ w ∈ nodeList g) ∧
      (∀ c ∈ sccs, ∀ u ∈ c, ∀ y ∈ c, Reach g u y) ∧
      (∀ c ∈ sccs, ∀ u ∈ c, ∀ y, Reach g u y → Reach g y u → y ∈ c) := by
  have hloop : ∀ (ks : List α), (∀ k ∈ ks, k ∈ g.map Prod.fst) →
      ∀ st : TarjanState α, TarjanWF g st → st.stack = [] →
      (∀ w, visited st w → ∀ y, Edge g w y → visited st y) →
      ∃ stF, (ks.foldl (fun acc v =>
        match acc with
        | none => none
        | some st =>
          if (alGet st.indices v).isSome then some st
          else strongConnect g ((nodeList g).length + 1) st v) (some st)) = some stF ∧
        TarjanWF g stF ∧ stF.stack = [] ∧
        (∀ w, visited st w → visited stF w) ∧
        (∀ k ∈ ks, visited stF k) ∧
        (∀ w, visited stF w → ∀ y, Edge g w y → visited stF y) := by
    intro ks
    induction ks with
    | nil =>
      intro _ st wf hemp hcl
      exact ⟨st, rfl, wf, hemp, fun w h => h, by simp, hcl⟩
    | cons k ks ih =>
      intro hks st wf hemp hcl
      by_cases hvk : (alGet st.indices k).isSome
      · obtain ⟨stF, heqF, wfF, hempF, hmonoF, hksF, hclF⟩ :=
          ih (fun x hx => hks x (List.mem_cons_of_mem _ hx)) st wf hemp hcl
        refine ⟨stF, ?_, wfF, hempF, hmonoF, ?_, hclF⟩
        · rw [List.foldl_cons]
          have hstep : (if (alGet st.indices k).isSome then some st
              else strongConnect g ((nodeList g).length + 1) st k) = some st := by
            rw [if_pos hvk]
          rw [show (match some st with
            | none => none
            | some st =>
              if (alGet st.indices k).isSome then some st
              else strongConnect g ((nodeList g).length + 1) st k) =
              (if (alGet st.indices k).isSome then some st
              else strongConnect g ((nodeList g).length + 1) st k) from rfl, hstep]
          exact heqF
        · intro x hx
          rcases List.mem_cons.mp hx with rfl | hx2
          · exact hmonoF x hvk
          · exact hksF x hx2
      · have hnvk : ¬ visited st k := by simpa [visited] using hvk
        have hknode : k ∈ nodeList g := key_mem_nodeList g k (hks k (List.mem_cons_self _ _))
        have hcnt : unvisitedCount g st < (nodeList g).length + 1 :=
          Nat.lt_succ_of_le (List.length_filter_le _ _)
        obtain ⟨st', heq, hpost⟩ := strongConnect_spec g ((nodeList g).length + 1)
          st k wf hnvk hknode hcnt
        have hemp' : st'.stack = [] := by
          rcases hpost.stackShape with ⟨hse, _⟩ | ⟨ext2, hse, hsn⟩
          · rw [hse, hemp]
          · exfalso
            have hvs : k ∈ st'.stack := by
              rw [hse, hemp]
              simp
            have h1 := hpost.postRoot k hnvk hvs
            obtain ⟨z, hz, hzi, hzr⟩ := hpost.wf.lowStack k hvs
            have hik : idxD st' k = st.index := by
              unfold idxD
              rw [show alGet st'.indices k = some st.index from hpost.vIdx]
              rfl
            have hzst := hz
            rw [hse, hemp] at hz
            simp only [List.nil_append] at hz
            rcases List.mem_cons.mp hz with rfl | hz2
            · omega
            · have hz0 : ¬ visited st z := hsn z hz2
              have hzv : visited st' z := hpost.wf.stackIdx z hzst
              obtain ⟨i, hi⟩ := Option.isSome_iff_exists.mp hzv
              have hge := hpost.newBounds z i (not_visited_none hz0) hi
              have hzD : idxD st' z = i := by
                unfold idxD
                rw [show alGet st'.indices z = some i from hi]
                rfl
              omega
        have hcl' : ∀ w, visited st' w → ∀ y, Edge g w y → visited st' y := by
          intro w hw y hy
          by_cases hw0 : visited st w
          · exact visited_of_idxPres hpost.idxPres y (hcl w hw0 y hy)
          · exact hpost.postComp w hw0 hw y hy
        obtain ⟨stF, heqF, wfF, hempF, hmonoF, hksF, hclF⟩ :=
          ih (fun x hx => hks x (List.mem_cons_of_mem _ hx)) st' hpost.wf hemp' hcl'
        refine ⟨stF, ?_, wfF, hempF,
          fun w h => hmonoF w (visited_of_idxPres hpost.idxPres w h), ?_, hclF⟩
        · rw [List.foldl_cons]
          have hstep : (if (alGet st.indices k).isSome then some st
              else strongConnect g ((nodeList g).length + 1) st k) = some st' := by
            rw [if_neg hvk]
            exact heq
          rw [show (match some st with
            | none => none
            | some st =>
              if (alGet st.indices k).isSome then some st
              else strongConnect g ((nodeList g).length + 1) st k) =
              (if (alGet st.indices k).isSome then some st
              else strongConnect g ((nodeList g).length + 1) st k) from rfl, hstep]
          exact heqF
        · intro x hx
          rcases List.mem_cons.mp hx with rfl | hx2
          · exact hmonoF x (Option.isSome_iff_exists.mpr ⟨st.index, hpost.vIdx⟩)
          · exact hksF x hx2
  have hinitcl : ∀ w, visited (initTarjan : TarjanState α) w → ∀ y, Edge g w y →
      visited initTarjan y := by
    intro w hw
    simp [initTarjan, visited, alGet] at hw
  obtain ⟨stF, heqF, wfF, hempF, _, hksF, hclF⟩ :=
    hloop (g.map Prod.fst) (fun k hk => hk) initTarjan (initTarjan_wf g) rfl hinitcl
  have hvisiff : ∀ w, visited stF w ↔ w ∈ nodeList g := by
    intro w
    constructor
    · exact wfF.idxNode w
    · intro hw
      have hw2 : w ∈ g.map Prod.fst ++ (g.map Prod.fst).flatMap (adj g) :=
        List.mem_dedup.mp hw
      rcases List.mem_append.mp hw2 with h | h
      · exact hksF w h
      · obtain ⟨u, hu, hw3⟩ := List.mem_flatMap.mp h
        exact hclF u (hksF u hu) w hw3
  have hflat : ∀ w, w ∈ stF.sccs.flatten ↔ w ∈ nodeList g := by
    intro w
    rw [← hvisiff w, wfF.partStack w, hempF]
    simp [sccsFlat]
  refine ⟨stF.sccs, ?_, wfF.flatNodup, hflat, wfF.sccConn, wfF.sccMax⟩
  unfold findSCCs
  rw [heqF]
  rfl

/-- C2: `findSCCs` computes the correct SCC partition of the dependency
graph's nodes: its components enumerate every graph node (keys and edge
targets) with no repetition, so each node is assigned to exactly one
component; and two nodes share a component exactly when each is reachable
from the other along directed dependency edges — so nodes in different
components are never mutually reachable. -/
theorem findSCCs_partition {α : Type} [DecidableEq α] (g : List (α × List α)) :
    ∃ sccs, findSCCs g = some sccs ∧
      (∀ w, w ∈ sccs.flatten ↔ w ∈ nodeList g) ∧
      (∀ u ∈ nodeList g, sccs.countP (fun c => decide (u ∈ c)) = 1) ∧
      (∀ u y, u ∈ nodeList g →
        ((∃ c ∈ sccs, u ∈ c ∧ y ∈ c) ↔ Reach g u y ∧ Reach g y u)) := by
  obtain ⟨sccs, heq, hnd, hflat, hconn, hmax⟩ := findSCCs_spec g
  refine ⟨sccs, heq, hflat, ?_, ?_⟩
  · intro u hu
    exact countP_eq_one_of_nodup_flatten sccs hnd u ((hflat u).mpr hu)
  · intro u y hu
    constructor
    · rintro ⟨c, hc, huc, hyc⟩
      exact ⟨hconn c hc u huc y hyc, hconn c hc y hyc u huc⟩
    · rintro ⟨huy, hyu⟩
      obtain ⟨c, hc, huc⟩ := List.mem_flatten.mp ((hflat u).mpr hu)
      exact ⟨c, hc, huc, hmax c hc u huc y huy hyu⟩

/-- Instantiation of the partition theorem on the toy dependency graph. -/
theorem findSCCs_partition_witness :
    ∃ sccs, findSCCs toyGraph = some sccs ∧
      (∀ w, w ∈ sccs.flatten ↔ w ∈ nodeList toyGraph) ∧
      (∀ u ∈ nodeList toyGraph, sccs.countP (fun c => decide (u ∈ c)) = 1) ∧
      (∀ u y, u ∈ nodeList toyGraph →
        ((∃ c ∈ sccs, u ∈ c ∧ y ∈ c) ↔ Reach toyGraph u y ∧ Reach toyGraph y u)) :=
  findSCCs_partition toyGraph

theorem visitNeighbors_cons_none {α : Type} [DecidableEq α]
    (sc : TarjanState α → α → Option (TarjanState α)) (v w : α) (ws : List α)
    (st : TarjanState α) (h1 : (alGet st.indices w).isSome = false)
    (h2 : sc st w = none) :
    visitNeighbors sc v (w :: ws) st = none := by
  simp only [visitNeighbors, h1, Bool.false_eq_true, if_false, h2]

theorem alGet_append_of_some {α β : Type} [DecidableEq α] (l1 l2 : List (α × β))
    (k : α) (v : β) (h : alGet l1 k = some v) : alGet (l1 ++ l2) k = some v := by
  induction l1 with
  | nil => simp [alGet] at h
  | cons p rest ih =>
    obtain ⟨a, b⟩ := p
    by_cases hk : k = a
    · simp only [alGet, if_pos hk] at h ⊢
      exact h
    · simp only [alGet, if_neg hk] at h ⊢
      exact ih h

theorem alGet_append_of_none {α β : Type} [DecidableEq α] (l1 l2 : List (α × β))
    (k : α) (h : alGet l1 k = none) : alGet (l1 ++ l2) k = alGet l2 k := by
  induction l1 with
  | nil => rfl
  | cons p rest ih =>
    obtain ⟨a, b⟩ := p
    by_cases hk : k = a
    · simp only [alGet, if_pos hk] at h
      exact Option.noConfusion h
    · simp only [alGet, if_neg hk] at h ⊢
      exact ih h

theorem alGet_chainGraph (n k : Nat) :
    alGet (chainGraph n) k = if k < n then some [k + 1] else none := by
  induction n with
  | zero => simp [chainGraph, alGet]
  | succ n ih =>
    have h : chainGraph (n + 1) = chainGraph n ++ [(n, [n + 1])] := by
      unfold chainGraph
      rw [List.range_succ, List.map_append]
      rfl
    rw [h]
    by_cases hk : k < n
    · have h1 : alGet (chainGraph n) k = some [k + 1] := by rw [ih, if_pos hk]
      rw [alGet_append_of_some _ _ _ _ h1, if_pos (by omega)]
    · have h1 : alGet (chainGraph n) k = none := by rw [ih, if_neg hk]
      rw [alGet_append_of_none _ _ _ h1]
      by_cases hk2 : k = n
      · subst hk2
        rw [if_pos (Nat.lt_succ_self k)]
        simp [alGet]
      · have h2 : ¬ k < n + 1 := by omega
        rw [if_neg h2]
        simp [alGet, hk2]

theorem adj_chainGraph (n k : Nat) (hk : k < n) : adj (chainGraph n) k = [k + 1] := by
  unfold adj
  rw [alGet_chainGraph, if_pos hk]
  rfl

/-- With fuel at most the remaining chain length, the naively recursive
`strongConnect` runs out: the recursion descends through every remaining
chain node, consuming one stack frame per node. -/
theorem strongConnect_chain_none (n : Nat) :
    ∀ (fuel : Nat) (st : TarjanState Nat) (k : Nat),
      (∀ j, k ≤ j → ¬ visited st j) → fuel + k ≤ n →
      strongConnect (chainGraph n) fuel st k = none := by
  intro fuel
  induction fuel with
  | zero =>
    intro st k _ _
    rfl
  | succ fuel ih =>
    intro st k hunv hle
    rw [strongConnect_succ_eq (chainGraph n) fuel st k]
    have hkn : k < n := by omega
    rw [adj_chainGraph n k hkn]
    set st1 : TarjanState Nat := ⟨alSet st.indices k st.index, alSet st.lowlinks k st.index,
      setAdd st.onStack k, st.stack ++ [k], st.sccs, st.index + 1⟩ with hst1
    have h1 : (alGet st1.indices (k + 1)).isSome = false := by
      rw [show alGet st1.indices (k + 1) = alGet st.indices (k + 1) from
        alGet_alSet_ne st.indices k (k + 1) st.index (by omega)]
      have h := hunv (k + 1) (by omega)
      unfold visited at h
      simpa using h
    have h2 : strongConnect (chainGraph n) fuel st1 (k + 1) = none := by
      apply ih
      · intro j hj hv
        rcases (visited_push_iff st k j st.index).mp hv with h3 | h3
        · omega
        · exact hunv j (by omega) h3
      · omega
    rw [show visitNeighbors (fun st w => strongConnect (chainGraph n) fuel st w) k
        [k + 1] st1 = none from
      visitNeighbors_cons_none _ k (k + 1) [] st1 h1 h2]

/-- C3: the spec demands that the SCC traversal use an explicit
heap-allocated stack, never language call-stack depth proportional to graph
depth. The code's `strongConnect` is naively recursive: on the chain graph
`0 → 1 → ⋯ → n` it recurses once per chain node, so with call-stack room
(modelled by the fuel parameter) at most the chain length `n` the traversal
aborts, for every `n` — the required call-stack depth grows linearly with
graph depth. The traversal itself is fine given enough frames: the full
`findSCCs` run (whose fuel exceeds the node count) succeeds on every chain.
The spec's requirement is violated: this is a defect of the code, not of
the spec. -/
theorem strongConnect_callstack_linear :
    (∀ n fuel, fuel ≤ n →
      strongConnect (chainGraph n) fuel initTarjan 0 = none) ∧
    (∀ n, ∃ sccs, findSCCs (chainGraph n) = some sccs) := by
  constructor
  · intro n fuel hf
    apply strongConnect_chain_none n fuel initTarjan 0
    · intro j _ hv
      simp [initTarjan, visited, alGet] at hv
    · omega
  · intro n
    obtain ⟨sccs, heq, _⟩ := findSCCs_spec (chainGraph n)
    exact ⟨sccs, heq⟩

/-- Concrete instance: a 4-node chain overflows a 3-frame call stack, while
the full decomposition (given fuel beyond the node count) succeeds. -/
theorem strongConnect_callstack_linear_witness :
    strongConnect (chainGraph 3) 3 initTarjan 0 = none ∧
    ∃ sccs, findSCCs (chainGraph 3) = some sccs :=
  ⟨strongConnect_callstack_linear.1 3 3 (by decide),
    strongConnect_callstack_linear.2 3⟩

theorem foldl_preserve_mem {α β : Type} (P : α → Prop) (f : α → β → α) :
    ∀ (l : List β) (a : α), (∀ a x, x ∈ l → P a → P (f a x)) → P a → P (l.foldl f a) := by
  intro l
  induction l with
  | nil =>
    intro a _ ha
    exact ha
  | cons x l ih =>
    intro a h ha
    exact ih (f a x) (fun a y hy hp => h a y (List.mem_cons_of_mem _ hy) hp)
      (h a x (List.mem_cons_self _ _) ha)

/-- Phase 2 creates a lemma-index entry only together with its first appended
definition, so every stored list is non-empty. -/
theorem buildLemmaIndex_values_ne (stop : List String)
    (defs : List (String × SynsetData)) (lems : List (String × List String)) :
    ∀ p ∈ (buildLemmaIndex stop defs lems).lemmaToDefinitions, p.2 ≠ [] := by
  have hstep : ∀ (acc : ParsedTables) (sd : String × SynsetData),
      (∀ p ∈ acc.lemmaToDefinitions, p.2 ≠ []) →
      ∀ p ∈ (sd.2.definitions.foldl (fun acc definition =>
        let contentWords := extractContentWords stop definition
        let acc := ((alGet lems sd.1).getD []).foldl (fun acc lem =>
          { acc with
            lemmaToDefinitions := alSet acc.lemmaToDefinitions lem
              (((alGet acc.lemmaToDefinitions lem).getD []) ++
                [⟨definition, sd.2.partOfSpeech, sd.1⟩])
            selfReferences :=
              if lem ∈ contentWords then setAdd acc.selfReferences lem
              else acc.selfReferences }) acc
        { acc with
          definitionWordCounts := contentWords.foldl (fun m w =>
            alSet m w ((alGet m w).getD 0 + 1)) acc.definitionWordCounts }) acc
        ).lemmaToDefinitions, p.2 ≠ [] := by
    intro acc sd hinv
    refine foldl_preserve
      (fun acc : ParsedTables => ∀ p ∈ acc.lemmaToDefinitions, p.2 ≠ [])
      _ _ _ ?_ hinv
    intro a definition ha
    refine foldl_preserve
      (fun acc : ParsedTables => ∀ p ∈ acc.lemmaToDefinitions, p.2 ≠ [])
      _ _ _ ?_ ha
    intro b lem hb p hp
    rcases mem_alSet b.lemmaToDefinitions lem _ p hp with h | h
    · exact hb p h
    · rw [h]
      simp
  exact foldl_preserve
    (fun acc : ParsedTables => ∀ p ∈ acc.lemmaToDefinitions, p.2 ≠ [])
    _ _ _ hstep (by simp)

/-- Every node of the dependency graph — key or edge target — has a
lemma-index entry: keys are the index's keys, and an edge is only added to a
word with an index entry. -/
theorem buildDependencyGraph_nodes (stop : List String)
    (index : List (String × List DefEntry)) :
    ∀ w ∈ nodeList (buildDependencyGraph stop index), (alGet index w).isSome := by
  have hkeys : ∀ k ∈ (buildDependencyGraph stop index).map Prod.fst,
      k ∈ index.map Prod.fst := by
    refine foldl_preserve_mem
      (fun g : List (String × List String) =>
        ∀ k ∈ g.map Prod.fst, k ∈ index.map Prod.fst)
      _ index [] ?_ (by simp)
    intro g p hp hinv k hk
    rcases alSet_keys_sub g p.1 _ k hk with h | h
    · exact hinv k h
    · rw [h]
      exact List.mem_map.mpr ⟨p, hp, rfl⟩
  have hvals : ∀ p ∈ buildDependencyGraph stop index, ∀ w ∈ p.2,
      (alGet index w).isSome := by
    refine foldl_preserve
      (fun g : List (String × List String) =>
        ∀ p ∈ g, ∀ w ∈ p.2, (alGet index w).isSome)
      _ index [] ?_ (by simp)
    intro g q hinv p hp
    have hdeps : ∀ w ∈ q.2.foldl (fun deps d =>
        (extractContentWords stop d.definition).foldl (fun deps w =>
          if (alGet index w).isSome then setAdd deps w else deps) deps) [],
        (alGet index w).isSome := by
      refine foldl_preserve
        (fun deps : List String => ∀ w ∈ deps, (alGet index w).isSome)
        _ _ _ ?_ (by simp)
      intro deps d hd
      refine foldl_preserve
        (fun deps : List String => ∀ w ∈ deps, (alGet index w).isSome)
        _ _ _ ?_ hd
      intro ds w hds x hx
      by_cases hw : (alGet index w).isSome
      · rw [if_pos hw] at hx
        rcases (mem_setAdd ds w x).mp hx with h | h
        · exact hds x h
        · rw [h]
          exact hw
      · rw [if_neg hw] at hx
        exact hds x hx
    rcases mem_alSet g q.1 _ p hp with h | h
    · exact hinv p h
    · rw [h]
      exact hdeps
  intro w hw
  have hw2 : w ∈ (buildDependencyGraph stop index).map Prod.fst ++
      ((buildDependencyGraph stop index).map Prod.fst).flatMap
        (adj (buildDependencyGraph stop index)) := List.mem_dedup.mp hw
  rcases List.mem_append.mp hw2 with h | h
  · exact alGet_isSome_of_mem_keys index w (hkeys w h)
  · obtain ⟨u, _, hwu⟩ := List.mem_flatMap.mp h
    unfold adj at hwu
    cases halg : alGet (buildDependencyGraph stop index) u with
    | none =>
      rw [halg] at hwu
      simp at hwu
    | some deps =>
      rw [halg] at hwu
      simp only [Option.getD_some] at hwu
      exact hvals (u, deps) (alGet_mem _ u deps halg) w hwu

/-- With a non-empty entry list under the word, `mkPrimeRecord` stores the
head entry's definition and part of speech. -/
theorem mkPrimeRecord_some (g : List (String × List String))
    (idx : List (String × List DefEntry)) (c : List (String × Nat))
    (s : List String) (word : String) (scc : List String) (d : DefEntry)
    (rest : List DefEntry) (h : alGet idx word = some (d :: rest)) :
    (mkPrimeRecord g idx c s word scc).definition = some d.definition ∧
    (mkPrimeRecord g idx c s word scc).partOfSpeech = some d.partOfSpeech := by
  unfold mkPrimeRecord
  rw [h]
  exact ⟨rfl, rfl⟩

/-- C10: every key of the lemma index maps to a non-empty list of
(definition, part-of-speech, concept-set) entries — an entry is created only
together with the first definition appended to it — and therefore every
record of the final output, whose word always has an index entry, carries a
present representative definition and part of speech. -/
theorem lemmaIndex_nonempty_defs (stop : List String)
    (defs : List (String × SynsetData)) (lems : List (String × List String))
    (sccs : List (List String))
    (hsccs : findSCCs (buildDependencyGraph stop
      (buildLemmaIndex stop defs lems).lemmaToDefinitions) = some sccs) :
    (∀ p ∈ (buildLemmaIndex stop defs lems).lemmaToDefinitions, p.2 ≠ []) ∧
    ∀ p ∈ buildPrimes
        (buildDependencyGraph stop (buildLemmaIndex stop defs lems).lemmaToDefinitions)
        (buildLemmaIndex stop defs lems).lemmaToDefinitions
        (buildLemmaIndex stop defs lems).definitionWordCounts
        (buildLemmaIndex stop defs lems).selfReferences sccs,
      p.definition.isSome ∧ p.partOfSpeech.isSome := by
  refine ⟨buildLemmaIndex_values_ne stop defs lems, ?_⟩
  intro p hp
  rw [mem_buildPrimes] at hp
  obtain ⟨e, he, _, hpe⟩ := hp
  obtain ⟨hscc_mem, hw_mem⟩ := mem_wordToSCC sccs e he
  have hflat : e.1 ∈ sccs.flatten := List.mem_flatten.mpr ⟨e.2, hscc_mem, hw_mem⟩
  obtain ⟨sccs2, heq2, _, hflat2, _, _⟩ := findSCCs_spec
    (buildDependencyGraph stop (buildLemmaIndex stop defs lems).lemmaToDefinitions)
  have hss : sccs2 = sccs := Option.some.inj (heq2.symm.trans hsccs)
  subst hss
  have hnode : e.1 ∈ nodeList (buildDependencyGraph stop
      (buildLemmaIndex stop defs lems).lemmaToDefinitions) := (hflat2 e.1).mp hflat
  have hsome : (alGet (buildLemmaIndex stop defs lems).lemmaToDefinitions e.1).isSome :=
    buildDependencyGraph_nodes stop _ e.1 hnode
  obtain ⟨entries, hent⟩ := Option.isSome_iff_exists.mp hsome
  have hne : entries ≠ [] := buildLemmaIndex_values_ne stop defs lems (e.1, entries)
    (alGet_mem _ e.1 entries hent)
  cases entries with
  | nil => exact absurd rfl hne
  | cons d rest =>
    obtain ⟨hd1, hd2⟩ := mkPrimeRecord_some
      (buildDependencyGraph stop (buildLemmaIndex stop defs lems).lemmaToDefinitions)
      (buildLemmaIndex stop defs lems).lemmaToDefinitions
      (buildLemmaIndex stop defs lems).definitionWordCounts
      (buildLemmaIndex stop defs lems).selfReferences e.1 e.2 d rest hent
    rw [hpe, hd1, hd2]
    exact ⟨rfl, rfl⟩

/-- The index/record-presence theorem instantiated on the toy corpus. -/
theorem lemmaIndex_nonempty_defs_witness :
    findSCCs (buildDependencyGraph []
        (buildLemmaIndex [] toySynsetDefs toySynsetLemmas).lemmaToDefinitions) =
      some [["thing", "entity"], ["body"]] ∧
    ((∀ p ∈ (buildLemmaIndex [] toySynsetDefs toySynsetLemmas).lemmaToDefinitions,
        p.2 ≠ []) ∧
    ∀ p ∈ buildPrimes
        (buildDependencyGraph []
          (buildLemmaIndex [] toySynsetDefs toySynsetLemmas).lemmaToDefinitions)
        (buildLemmaIndex [] toySynsetDefs toySynsetLemmas).lemmaToDefinitions
        (buildLemmaIndex [] toySynsetDefs toySynsetLemmas).definitionWordCounts
        (buildLemmaIndex [] toySynsetDefs toySynsetLemmas).selfReferences
        [["thing", "entity"], ["body"]],
      p.definition.isSome ∧ p.partOfSpeech.isSome) :=
  ⟨by decide, lemmaIndex_nonempty_defs [] toySynsetDefs toySynsetLemmas
    [["thing", "entity"], ["body"]] (by decide)⟩

end SemanticPrimes
